import Mathlib

/-!
Verification of the grouped GEMM-based convolution kernel
(`src/core/src/ops/nn/conv/conv_gemm.rs`).

The shallow embedding below translates `ConvGemm<D>` and its method
`conv_gemm` into Lean. Tensors are modelled row-major: an N-dimensional
tensor is a shape (list of dimension sizes) together with a flat
`Nat → α` data function; 2-D views (the kernel matrix and the
mega-matrix) are dimension pairs together with an entry function.
The generic element type `D` (a `LinalgScalar`) is modelled by a
commutative ring `α`. The external matrix-multiply primitive
`tract_linalg::mat_mul_f32` and the external im2col producer are out of
scope for the source per the spec; they are modelled from the spec at
their interface boundary (see the doc comments of `sumTo`, `c_panel`,
`im2col`). Rust panics (out-of-bounds `slice_axis`, failed broadcast)
and `TractResult` errors (the `into_shape` failure propagated by `?`)
are kept distinct via the `Fail` type.
-/

namespace TractConvGemm

/-- DataFormat from ops::nn: channel-first (NCHW) or channel-last (NHWC). -/
inductive DataFormat where
  | NCHW
  | NHWC
deriving DecidableEq

/-- KernelFormat from ops::nn::conv; carried by the ConvGemm struct but never
read by conv_gemm. -/
inductive KernelFormat where
  | OIHW
  | HWIO
deriving DecidableEq

/-- A DataShape: a tensor shape together with its data format, as carried by
Patch.input_shape. Only the parts conv_gemm reads are modelled. -/
structure DataShape where
  fmt : DataFormat
  shape : List Nat
deriving DecidableEq

/-- Axis of the batch dimension: 0 in both supported formats. -/
def DataShape.n_axis (_ : DataShape) : Nat := 0

/-- Axis of the channel dimension: 1 for NCHW, the last axis for NHWC. -/
def DataShape.c_axis (s : DataShape) : Nat :=
  match s.fmt with
  | DataFormat.NCHW => 1
  | DataFormat.NHWC => s.shape.length - 1

/-- Size of the batch dimension. -/
def DataShape.n_dim (s : DataShape) : Nat := s.shape.getD s.n_axis 0

/-- The Patch descriptor; conv_gemm reads only its input_shape. -/
structure Patch where
  input_shape : DataShape

/-- A 2-D matrix: dimensions plus an entry function. Value-level model of an
ndarray Array2 / ArrayView2; entries are read through the view so indices
outside rows × cols are never exercised under the stated preconditions. -/
structure MatF (α : Type) where
  rows : Nat
  cols : Nat
  entry : Nat → Nat → α

/-- An N-dimensional tensor in row-major order: shape plus flat data. -/
structure TensorFn (α : Type) where
  shape : List Nat
  data : Nat → α

/-- The ConvGemm operator struct (derive(new): construction stores the fields
verbatim, with no validation). -/
structure ConvGemm (α : Type) where
  patch : Patch
  full_output_shape : List Nat
  m : Nat
  k : Nat
  n : Nat
  kernel_fmt : KernelFormat
  kernel : MatF α
  bias : Option (TensorFn α)
  group : Nat

/-- Row-major flat index of a multi-index into a tensor of the given shape. -/
def flatIndex : List Nat → List Nat → Nat
  | _ :: ds, i :: is => i * ds.prod + flatIndex ds is
  | _, _ => 0

/-- Row-major multi-index decoding of a flat index. -/
def unflatten : List Nat → Nat → List Nat
  | [], _ => []
  | _ :: ds, t => t / ds.prod :: unflatten ds (t % ds.prod)

/-- All multi-indices of a shape, enumerated in row-major order (the logical
iteration order of an ndarray view). -/
def indicesOf : List Nat → List (List Nat)
  | [] => [[]]
  | d :: ds => (List.range d).flatMap (fun i => (indicesOf ds).map (fun rest => i :: rest))

section Model

variable {α : Type} [CommRing α]

/-- Finite sum of f 0 + ... + f (t-1). -/
def sumTo (f : Nat → α) : Nat → α
  | 0 => 0
  | t + 1 => sumTo f t + f t

/-- co_per_group = full_output_shape[input_shape.c_axis()] / group. -/
def co_per_group (cg : ConvGemm α) : Nat :=
  cg.full_output_shape.getD cg.patch.input_shape.c_axis 0 / cg.group

/-- mm_offset = n * (g + i * group). -/
def mm_offset (cg : ConvGemm α) (i g : Nat) : Nat := cg.n * (g + i * cg.group)

/-- Shape of output_subview after the two slice_axis_inplace calls: the batch
axis is reduced to 1 and the channel axis to co_per_group. -/
def subview_shape (cg : ConvGemm α) : List Nat :=
  (cg.full_output_shape.set cg.patch.input_shape.n_axis 1).set
    cg.patch.input_shape.c_axis (co_per_group cg)

/-- Flat positions (into the full output tensor) of the elements of
output_subview for tile (i, g), in the subview's row-major iteration order:
multi-index idx of the subview corresponds to the full multi-index with
idx[n_axis] + i at the batch axis and idx[c_axis] + g*co_per_group at the
channel axis. -/
def output_subview_targets (cg : ConvGemm α) (i g : Nat) : List Nat :=
  (indicesOf (subview_shape cg)).map (fun idx =>
    flatIndex cg.full_output_shape
      ((idx.set cg.patch.input_shape.n_axis (idx.getD cg.patch.input_shape.n_axis 0 + i)).set
        cg.patch.input_shape.c_axis
          (idx.getD cg.patch.input_shape.c_axis 0 + g * co_per_group cg)))

/-- Modelled from the spec: tract_linalg::mat_mul_f32 is the external
linear-algebra primitive (out of scope for this core per the spec, "assumed
correct"); per its boundary contract it fully populates the scratch panel C
with the product of A = kernel rows [co_per_group*g, co_per_group*(g+1)) and
B = mega-matrix columns [mm_offset, mm_offset + n):
C r j = sum over l < k of A r l * B l j. -/
def c_panel (cg : ConvGemm α) (mega : MatF α) (i g r j : Nat) : α :=
  sumTo (fun l => cg.kernel.entry (co_per_group cg * g + r) l *
    mega.entry l (mm_offset cg i g + j)) cg.k

/-- The scratch panel read in its own row-major order (the NCHW branch:
c_panel.view().into_shape(shape) followed by assign). -/
def c_panel_row_major (cg : ConvGemm α) (mega : MatF α) (i g : Nat) : List α :=
  (List.range cg.m).flatMap (fun r => (List.range cg.n).map (fun j => c_panel cg mega i g r j))

/-- The scratch panel read in transposed row-major order (the NHWC branch:
c_panel.t().iter()). -/
def c_panel_transposed (cg : ConvGemm α) (mega : MatF α) (i g : Nat) : List α :=
  (List.range cg.n).flatMap (fun j => (List.range cg.m).map (fun r => c_panel cg mega i g r j))

/-- Failure modes: a Rust panic (out-of-bounds slice_axis / failed broadcast)
versus a TractResult error (the into_shape failure propagated by the ? operator). -/
inductive Fail where
  | panic
  | err
deriving DecidableEq

/-- One iteration of the tile loop, producing the list of (flat position,
value) writes it performs into the output tensor. The guards model, in source
order, the panics of: output.slice_axis(n_axis, i..i+1),
output.slice_axis(c_axis, g*cpg..(g+1)*cpg),
kernel.slice_axis(0, cpg*g..cpg*(g+1)), and
mega_matrix.slice_axis(1, mm_offset..mm_offset+n). The NHWC branch zips the
subview with the transposed panel (silently stopping at the shorter of the
two); the NCHW branch requires the panel element count to match the subview
shape (into_shape fails with a TractResult error otherwise). -/
def tile_writes (cg : ConvGemm α) (mega : MatF α) (i g : Nat) :
    Except Fail (List (Nat × α)) :=
  if i + 1 ≤ cg.full_output_shape.getD cg.patch.input_shape.n_axis 0 then
    if (g + 1) * co_per_group cg ≤ cg.full_output_shape.getD cg.patch.input_shape.c_axis 0 then
      if co_per_group cg * (g + 1) ≤ cg.kernel.rows then
        if mm_offset cg i g + cg.n ≤ mega.cols then
          match cg.patch.input_shape.fmt with
          | DataFormat.NHWC =>
            Except.ok ((output_subview_targets cg i g).zip (c_panel_transposed cg mega i g))
          | DataFormat.NCHW =>
            if cg.m * cg.n = (subview_shape cg).prod then
              Except.ok ((output_subview_targets cg i g).zip (c_panel_row_major cg mega i g))
            else Except.error Fail.err
        else Except.error Fail.panic
      else Except.error Fail.panic
    else Except.error Fail.panic
  else Except.error Fail.panic

/-- The tile iteration space: batch index i outer, group index g inner. -/
def tile_pairs (cg : ConvGemm α) : List (Nat × Nat) :=
  (List.range cg.patch.input_shape.n_dim).flatMap
    (fun i => (List.range cg.group).map (fun g => (i, g)))

/-- Run the tile loop over the given tiles, concatenating their writes;
the first failing tile aborts the run with its failure. -/
def collect_writes (cg : ConvGemm α) (mega : MatF α) :
    List (Nat × Nat) → Except Fail (List (Nat × α))
  | [] => Except.ok []
  | p :: ps =>
    match tile_writes cg mega p.1 p.2 with
    | Except.error e => Except.error e
    | Except.ok w =>
      match collect_writes cg mega ps with
      | Except.error e => Except.error e
      | Except.ok ws => Except.ok (w ++ ws)

/-- Replay a list of writes over the initial (uninitialized) contents. -/
def apply_writes (init : Nat → α) (ws : List (Nat × α)) : Nat → α :=
  ws.foldl (fun f w => Function.update f w.1 w.2) init

/-- ndarray broadcast compatibility of the bias shape against the output
shape (trailing-axis alignment; each aligned bias dimension must equal the
output dimension or 1). `output += &bias` panics when this fails. -/
def broadcast_compat (outShape biasShape : List Nat) : Bool :=
  decide (biasShape.length ≤ outShape.length) &&
    (List.zip (outShape.drop (outShape.length - biasShape.length)) biasShape).all
      (fun p => p.2 == p.1 || p.2 == 1)

/-- The bias element broadcast onto flat output position t. -/
def bias_contrib {α : Type} [CommRing α] (outShape : List Nat) (b : TensorFn α) (t : Nat) : α :=
  let idx := (unflatten outShape t).drop (outShape.length - b.shape.length)
  b.data (flatIndex b.shape (List.zipWith (fun d i => if d = 1 then 0 else i) b.shape idx))

/-- The bias term added to flat output position t (0 when bias is None). -/
def bias_value (cg : ConvGemm α) (t : Nat) : α :=
  match cg.bias with
  | none => 0
  | some b => bias_contrib cg.full_output_shape b t

/-- ConvGemm::conv_gemm. Allocates the (uninitialized) output, runs the
batch-outer / group-inner tile loop, then adds the bias once at the end.
The leading guard models the panic of indexing
full_output_shape[input_shape.c_axis()]. -/
def ConvGemm.conv_gemm (cg : ConvGemm α) (mega : MatF α) (uninit : Nat → α) :
    Except Fail (TensorFn α) :=
  if cg.patch.input_shape.c_axis < cg.full_output_shape.length then
    match collect_writes cg mega (tile_pairs cg) with
    | Except.error e => Except.error e
    | Except.ok ws =>
      match cg.bias with
      | none => Except.ok ⟨cg.full_output_shape, apply_writes uninit ws⟩
      | some b =>
        if broadcast_compat cg.full_output_shape b.shape then
          Except.ok ⟨cg.full_output_shape,
            fun t => apply_writes uninit ws t + bias_contrib cg.full_output_shape b t⟩
        else Except.error Fail.panic
  else Except.error Fail.panic

/-- The evaluation returned Ok. -/
def resultOk (r : Except Fail (TensorFn α)) : Bool :=
  match r with
  | Except.ok _ => true
  | Except.error _ => false

/-- The evaluation returned a TractResult error. -/
def resultErr (r : Except Fail (TensorFn α)) : Bool :=
  match r with
  | Except.error Fail.err => true
  | _ => false

/-- The evaluation panicked. -/
def resultPanic (r : Except Fail (TensorFn α)) : Bool :=
  match r with
  | Except.error Fail.panic => true
  | _ => false

/-- Shape of the tensor of a successful evaluation. -/
def okShape (r : Except Fail (TensorFn α)) : List Nat :=
  match r with
  | Except.ok tensor => tensor.shape
  | Except.error _ => []

/-- Flat element t of the tensor of a successful evaluation. -/
def okAt (r : Except Fail (TensorFn α)) (t : Nat) : α :=
  match r with
  | Except.ok tensor => tensor.data t
  | Except.error _ => 0

/-- The bias, when present, must be broadcast-compatible with the output
shape (otherwise the += broadcast panics). -/
def BiasOk (cg : ConvGemm α) : Prop :=
  match cg.bias with
  | none => True
  | some b => broadcast_compat cg.full_output_shape b.shape = true

/-- Declared shape preconditions of an evaluation with channel-first (NCHW)
output, spelled out from the data-model invariants of the spec: the output
shape is batch :: channels :: spatial with channels = m * group, n is the
spatial extent of one output slice, the kernel has enough rows for every
group, and the mega-matrix has the declared n * group * batch columns. -/
structure NCHWPre (cg : ConvGemm α) (mega : MatF α) (N : Nat) (sp : List Nat) : Prop where
  hfmt : cg.patch.input_shape.fmt = DataFormat.NCHW
  hshape : cg.full_output_shape = N :: (cg.m * cg.group) :: sp
  hN : cg.patch.input_shape.n_dim = N
  hG : 0 < cg.group
  hn : cg.n = sp.prod
  hk : cg.m * cg.group ≤ cg.kernel.rows
  hmega : cg.n * cg.group * N ≤ mega.cols

/-- Declared shape preconditions of an evaluation with channel-last (NHWC)
output: the output shape is batch :: spatial ++ [channels] with channels =
m * group, the input shape has the same rank (so c_axis points at the last
output axis), and the remaining invariants as in the NCHW case. -/
structure NHWCPre (cg : ConvGemm α) (mega : MatF α) (N : Nat) (sp : List Nat) : Prop where
  hfmt : cg.patch.input_shape.fmt = DataFormat.NHWC
  hshape : cg.full_output_shape = N :: sp ++ [cg.m * cg.group]
  hrank : cg.patch.input_shape.shape.length = sp.length + 2
  hN : cg.patch.input_shape.n_dim = N
  hG : 0 < cg.group
  hn : cg.n = sp.prod
  hk : cg.m * cg.group ≤ cg.kernel.rows
  hmega : cg.n * cg.group * N ≤ mega.cols

/-- Closed form (proved below) of the writes of tile (i, g) under the NCHW
preconditions: m * sp.prod consecutive flat positions starting at
(i * (m*group) + g*m) * sp.prod, carrying the panel in row-major order. -/
def nchw_tile (cg : ConvGemm α) (mega : MatF α) (sp : List Nat) (i g : Nat) :
    List (Nat × α) :=
  (List.range (cg.m * sp.prod)).map (fun u =>
    ((i * (cg.m * cg.group) + g * cg.m) * sp.prod + u,
     c_panel cg mega i g (u / sp.prod) (u % sp.prod)))

/-- Closed form of the whole write trace under the NCHW preconditions. -/
def nchw_writes (cg : ConvGemm α) (mega : MatF α) (N : Nat) (sp : List Nat) :
    List (Nat × α) :=
  (List.range N).flatMap (fun i =>
    (List.range cg.group).flatMap (fun g => nchw_tile cg mega sp i g))

/-- Closed form (proved below) of the writes of tile (i, g) under the NHWC
preconditions: the subview walks spatial-then-channel while the panel is
walked transposed. -/
def nhwc_tile (cg : ConvGemm α) (mega : MatF α) (sp : List Nat) (i g : Nat) :
    List (Nat × α) :=
  (List.range (sp.prod * cg.m)).map (fun u =>
    (i * (sp.prod * (cg.m * cg.group)) + (u / cg.m) * (cg.m * cg.group) + g * cg.m + u % cg.m,
     c_panel cg mega i g (u % cg.m) (u / cg.m)))

/-- Closed form of the whole write trace under the NHWC preconditions. -/
def nhwc_writes (cg : ConvGemm α) (mega : MatF α) (N : Nat) (sp : List Nat) :
    List (Nat × α) :=
  (List.range N).flatMap (fun i =>
    (List.range cg.group).flatMap (fun g => nhwc_tile cg mega sp i g))

/-- One constraint asserted to the shape/type inference solver. -/
inductive Constraint (δ : Type) where
  | inputsLen : Nat → Constraint δ
  | outputsLen : Nat → Constraint δ
  | inputDatumType : Nat → δ → Constraint δ
  | outputDatumType : Nat → δ → Constraint δ
  | outputShape : Nat → List Nat → Constraint δ
deriving DecidableEq

/-- InferenceRulesOp::rules for ConvGemm: the constraints asserted to the
solver, in the order the source asserts them; dt stands for D::datum_type(). -/
def ConvGemm.rules {δ : Type} (cg : ConvGemm α) (dt : δ) : List (Constraint δ) :=
  [Constraint.inputsLen 1, Constraint.outputsLen 1,
   Constraint.inputDatumType 0 dt, Constraint.outputDatumType 0 dt,
   Constraint.outputShape 0 cg.full_output_shape]

/-- Modelled from the spec: the kernel reaches this core already logically
reshaped to a 2-D matrix of shape (output_channels, in_channels_per_group *
kh * kw), channel-major: column index r encodes (channel, dy, dx) as
r = channel * (kh*kw) + dy * kw + dx. -/
def reshapeKernel (O cin kh kw : Nat) (K4 : Nat → Nat → Nat → Nat → α) : MatF α :=
  ⟨O, cin * (kh * kw), fun o r => K4 o (r / (kh * kw)) (r % (kh * kw) / kw) (r % (kh * kw) % kw)⟩

/-- Modelled from the spec: the external im2col producer (out of scope for
this core per the spec) builds the mega-matrix of a stride-1, unpadded,
channel-first 2-D convolution with batch = 1 and group = 1: row r encodes the
receptive-field offset (channel, dy, dx), column p the output spatial
position (y, x) with p = y * outW + x. -/
def im2col (cin kh kw outH outW : Nat) (input : Nat → Nat → Nat → α) : MatF α :=
  ⟨cin * (kh * kw), outH * outW, fun r p =>
    input (r / (kh * kw)) (p / outW + r % (kh * kw) / kw) (p % outW + r % (kh * kw) % kw)⟩

/-- Reference naive triple-loop convolution from the spec (section 8):
the direct mathematical definition of a stride-1, unpadded 2-D convolution. -/
def naiveConv (cin kh kw : Nat) (K4 : Nat → Nat → Nat → Nat → α)
    (input : Nat → Nat → Nat → α) (o y x : Nat) : α :=
  sumTo (fun c => sumTo (fun dy => sumTo (fun dx =>
    K4 o c dy dx * input c (y + dy) (x + dx)) kw) kh) cin

end Model

section ConcreteInstances

/-- Concrete 4x4 input of the spec's hand-computed scenario. -/
def c1_input : Nat → Nat → Nat → Int := fun _ y x =>
  (([[1,2,3,4],[5,6,7,8],[9,10,11,12],[13,14,15,16]] : List (List Int)).getD y []).getD x 0

/-- Concrete 3x3 kernel with a single 1 at the center. -/
def c1_K4 : Nat → Nat → Nat → Nat → Int := fun _ _ dy dx =>
  if dy = 1 ∧ dx = 1 then 1 else 0

/-- ConvGemm for the spec's concrete scenario: (1,1,4,4) channel-first input,
single 3x3 kernel, group 1, stride 1, no padding, output (1,1,2,2). -/
def c1_cg : ConvGemm Int :=
  { patch := ⟨⟨DataFormat.NCHW, [1, 1, 4, 4]⟩⟩, full_output_shape := [1, 1, 2, 2],
    m := 1, k := 9, n := 4, kernel_fmt := KernelFormat.OIHW,
    kernel := reshapeKernel 1 1 3 3 c1_K4, bias := none, group := 1 }

/-- A small NCHW configuration with two batches and two groups. -/
def c2_cg : ConvGemm Int :=
  { patch := ⟨⟨DataFormat.NCHW, [2, 2, 1]⟩⟩, full_output_shape := [2, 2, 1],
    m := 1, k := 1, n := 1, kernel_fmt := KernelFormat.OIHW,
    kernel := ⟨2, 1, fun r c => (([[10],[20]] : List (List Int)).getD r []).getD c 0⟩,
    bias := none, group := 2 }

def c2_mega : MatF Int :=
  ⟨1, 4, fun r p => (([[1,2,3,4]] : List (List Int)).getD r []).getD p 0⟩

/-- A small NCHW configuration with one batch, two groups, two channels per group. -/
def c3_cg : ConvGemm Int :=
  { patch := ⟨⟨DataFormat.NCHW, [1, 4, 1]⟩⟩, full_output_shape := [1, 4, 1],
    m := 2, k := 1, n := 1, kernel_fmt := KernelFormat.OIHW,
    kernel := ⟨4, 1, fun r c => (([[1],[2],[3],[4]] : List (List Int)).getD r []).getD c 0⟩,
    bias := none, group := 2 }

def c3_mega : MatF Int :=
  ⟨1, 2, fun r p => (([[5,6]] : List (List Int)).getD r []).getD p 0⟩

/-- NHWC configuration whose channel count differs from m * group; the kernel has
two rows so the over-wide mat_mul read stays inside the kernel allocation. -/
def c4_cg : ConvGemm Int :=
  { patch := ⟨⟨DataFormat.NHWC, [1, 2, 1]⟩⟩, full_output_shape := [1, 2, 1],
    m := 2, k := 1, n := 2, kernel_fmt := KernelFormat.OIHW,
    kernel := ⟨2, 1, fun _ _ => 1⟩, bias := none, group := 1 }

def c4_mega : MatF Int := ⟨1, 2, fun _ _ => 1⟩

/-- NHWC configuration whose declared n (2) disagrees with the spatial extent (3):
the zip scatter writes only 2 of the 3 destination elements. -/
def c5_cg : ConvGemm Int :=
  { patch := ⟨⟨DataFormat.NHWC, [1, 3, 1]⟩⟩, full_output_shape := [1, 3, 1],
    m := 1, k := 1, n := 2, kernel_fmt := KernelFormat.OIHW,
    kernel := ⟨1, 1, fun _ _ => 1⟩, bias := none, group := 1 }

def c5_mega : MatF Int := ⟨1, 2, fun _ _ => 1⟩

/-- The same logical convolution in channel-first layout (for C6). -/
def c6_nchw : ConvGemm Int :=
  { patch := ⟨⟨DataFormat.NCHW, [1, 1, 2]⟩⟩, full_output_shape := [1, 1, 2],
    m := 1, k := 1, n := 2, kernel_fmt := KernelFormat.OIHW,
    kernel := ⟨1, 1, fun _ _ => 3⟩, bias := none, group := 1 }

/-- The same logical convolution in channel-last layout (for C6). -/
def c6_nhwc : ConvGemm Int :=
  { patch := ⟨⟨DataFormat.NHWC, [1, 2, 1]⟩⟩, full_output_shape := [1, 2, 1],
    m := 1, k := 1, n := 2, kernel_fmt := KernelFormat.OIHW,
    kernel := ⟨1, 1, fun _ _ => 3⟩, bias := none, group := 1 }

def c6_mega : MatF Int :=
  ⟨1, 2, fun r p => (([[5,7]] : List (List Int)).getD r []).getD p 0⟩

/-- Two-group configuration (for C7); partner c7_b differs outside group 1. -/
def c7_a : ConvGemm Int :=
  { patch := ⟨⟨DataFormat.NCHW, [1, 2, 1]⟩⟩, full_output_shape := [1, 2, 1],
    m := 1, k := 1, n := 1, kernel_fmt := KernelFormat.OIHW,
    kernel := ⟨2, 1, fun r c => (([[10],[20]] : List (List Int)).getD r []).getD c 0⟩,
    bias := none, group := 2 }

def c7_b : ConvGemm Int :=
  { patch := ⟨⟨DataFormat.NCHW, [1, 2, 1]⟩⟩, full_output_shape := [1, 2, 1],
    m := 1, k := 1, n := 1, kernel_fmt := KernelFormat.OIHW,
    kernel := ⟨2, 1, fun r c => (([[99],[20]] : List (List Int)).getD r []).getD c 0⟩,
    bias := none, group := 2 }

def c7_mega_a : MatF Int :=
  ⟨1, 2, fun r p => (([[1,2]] : List (List Int)).getD r []).getD p 0⟩

def c7_mega_b : MatF Int :=
  ⟨1, 2, fun r p => (([[88,2]] : List (List Int)).getD r []).getD p 0⟩

/-- Configuration with an all-zero bias (for C9). -/
def c9_cg : ConvGemm Int :=
  { patch := ⟨⟨DataFormat.NCHW, [1, 1, 1]⟩⟩, full_output_shape := [1, 1, 1],
    m := 1, k := 1, n := 1, kernel_fmt := KernelFormat.OIHW,
    kernel := ⟨1, 1, fun _ _ => 2⟩, bias := some ⟨[1, 1, 1], fun _ => 0⟩, group := 1 }

def c9_mega : MatF Int := ⟨1, 1, fun _ _ => 5⟩

def c9_bias : TensorFn Int := ⟨[1, 1, 1], fun _ => 0⟩

/-- NCHW configuration whose first tile fails the into_shape check while the
mega-matrix is also too narrow for the whole run (for C10's counterexample). -/
def c10_cg : ConvGemm Int :=
  { patch := ⟨⟨DataFormat.NCHW, [1, 2, 1]⟩⟩, full_output_shape := [1, 2, 1],
    m := 1, k := 1, n := 2, kernel_fmt := KernelFormat.OIHW,
    kernel := ⟨2, 1, fun _ _ => 1⟩, bias := none, group := 2 }

def c10_mega : MatF Int := ⟨1, 2, fun _ _ => 1⟩

/-- NHWC configuration with a mega-matrix one column short (for C10's amended
statement). -/
def c10w_cg : ConvGemm Int :=
  { patch := ⟨⟨DataFormat.NHWC, [1, 2, 1]⟩⟩, full_output_shape := [1, 2, 1],
    m := 1, k := 1, n := 2, kernel_fmt := KernelFormat.OIHW,
    kernel := ⟨1, 1, fun _ _ => 1⟩, bias := none, group := 1 }

def c10w_mega : MatF Int := ⟨1, 1, fun _ _ => 1⟩

end ConcreteInstances


section ListLemmas

variable {A B γ : Type}

lemma flatMap_congr_left {l : List A} {f g : A → List B} (h : ∀ a ∈ l, f a = g a) :
    l.flatMap f = l.flatMap g := by
  induction l with
  | nil => rfl
  | cons a l ih =>
    simp only [List.flatMap_cons]
    rw [h a (List.mem_cons_self a l), ih (fun x hx => h x (List.mem_cons_of_mem a hx))]

lemma range_mul_flatMap (a b : Nat) :
    List.range (a * b) = (List.range a).flatMap (fun i => (List.range b).map (fun j => i * b + j)) := by
  induction a with
  | zero => simp
  | succ a ih =>
    rw [Nat.succ_mul, List.range_add, List.range_succ, List.flatMap_append, ← ih]
    simp

lemma flatMap_range_map (a b : Nat) (f : Nat → Nat → γ) :
    (List.range a).flatMap (fun i => (List.range b).map (fun j => f i j))
      = (List.range (a * b)).map (fun u => f (u / b) (u % b)) := by
  rw [range_mul_flatMap a b, List.map_flatMap]
  refine flatMap_congr_left (fun i _ => ?_)
  rw [List.map_map]
  refine List.map_congr_left (fun j hj => ?_)
  have hjb : j < b := List.mem_range.mp hj
  have hb : 0 < b := by omega
  have h1 : (i * b + j) / b = i := by
    rw [Nat.add_comm, Nat.mul_comm, Nat.add_mul_div_left _ _ hb, Nat.div_eq_of_lt hjb]
    omega
  have h2 : (i * b + j) % b = j := by
    rw [Nat.add_comm, Nat.mul_comm, Nat.add_mul_mod_self_left, Nat.mod_eq_of_lt hjb]
  simp only [Function.comp_apply, h1, h2]

lemma map_flatIndex_indicesOf (ds : List Nat) :
    (indicesOf ds).map (flatIndex ds) = List.range ds.prod := by
  induction ds with
  | nil => rfl
  | cons d ds ih =>
    simp only [indicesOf, List.map_flatMap, List.map_map]
    rw [List.prod_cons, range_mul_flatMap d ds.prod]
    refine flatMap_congr_left (fun i _ => ?_)
    have : (flatIndex (d :: ds)) ∘ (fun rest => i :: rest)
        = (fun v => i * ds.prod + v) ∘ flatIndex ds := by
      funext rest
      rfl
    rw [this, ← List.map_map, ih]

lemma length_indicesOf (ds : List Nat) : (indicesOf ds).length = ds.prod := by
  have h := congrArg List.length (map_flatIndex_indicesOf ds)
  simpa using h

lemma mem_indicesOf_length {ds : List Nat} {x : List Nat} (h : x ∈ indicesOf ds) :
    x.length = ds.length := by
  induction ds generalizing x with
  | nil =>
    simp only [indicesOf, List.mem_singleton] at h
    subst h; rfl
  | cons d ds ih =>
    simp only [indicesOf, List.mem_flatMap, List.mem_map] at h
    obtain ⟨i, _, rest, hrest, hx⟩ := h
    subst hx
    simp [ih hrest]

lemma indicesOf_append (ds es : List Nat) :
    indicesOf (ds ++ es) = (indicesOf ds).flatMap (fun x => (indicesOf es).map (fun y => x ++ y)) := by
  induction ds with
  | nil => simp [indicesOf]
  | cons d ds ih =>
    have lhs : indicesOf ((d :: ds) ++ es)
        = (List.range d).flatMap (fun i => (indicesOf (ds ++ es)).map (fun rest => i :: rest)) :=
      rfl
    rw [lhs]
    have rhs : (indicesOf (d :: ds)).flatMap (fun x => (indicesOf es).map (fun y => x ++ y))
        = (List.range d).flatMap (fun i => (indicesOf ds).flatMap
            (fun x => (indicesOf es).map (fun y => (i :: x) ++ y))) := by
      show ((List.range d).flatMap
          (fun i => (indicesOf ds).map (fun rest => i :: rest))).flatMap
          (fun x => (indicesOf es).map (fun y => x ++ y)) = _
      rw [List.flatMap_assoc]
      exact flatMap_congr_left (fun i _ => List.flatMap_map _ _ _)
    rw [rhs]
    refine flatMap_congr_left (fun i _ => ?_)
    rw [ih, List.map_flatMap]
    refine flatMap_congr_left (fun x _ => ?_)
    rw [List.map_map]
    rfl

lemma flatIndex_append {ds x : List Nat} (es y : List Nat) (h : x.length = ds.length) :
    flatIndex (ds ++ es) (x ++ y) = flatIndex ds x * es.prod + flatIndex es y := by
  induction ds generalizing x with
  | nil =>
    have : x = [] := List.length_eq_zero.mp h
    subst this
    simp [flatIndex]
  | cons d ds ih =>
    match x with
    | [] => simp at h
    | i :: x' =>
      simp only [List.length_cons, Nat.succ.injEq] at h
      show i * ((ds ++ es).prod) + flatIndex (ds ++ es) (x' ++ y)
          = (i * ds.prod + flatIndex ds x') * es.prod + flatIndex es y
      rw [List.prod_append, ih h]
      ring

lemma getD_append_cons {a : A} (xs ys : List A) (d : A) :
    (xs ++ a :: ys).getD xs.length d = a := by
  induction xs with
  | nil => rfl
  | cons x xs ih => simpa using ih

lemma set_append_cons {a v : A} (xs ys : List A) :
    (xs ++ a :: ys).set xs.length v = xs ++ v :: ys := by
  induction xs with
  | nil => rfl
  | cons x xs ih => simp [List.set, ih]

lemma count_range_eq (Q t : Nat) : (List.range Q).count t = if t < Q then 1 else 0 := by
  by_cases h : t < Q
  · rw [if_pos h]
    exact List.count_eq_one_of_mem (List.nodup_range Q) (List.mem_range.mpr h)
  · rw [if_neg h]
    exact List.count_eq_zero_of_not_mem (fun hc => h (List.mem_range.mp hc))

lemma count_map_add_range (b L t : Nat) :
    ((List.range L).map (fun u => b + u)).count t = if b ≤ t ∧ t < b + L then 1 else 0 := by
  by_cases h : b ≤ t ∧ t < b + L
  · rw [if_pos h]
    refine List.count_eq_one_of_mem ?_ ?_
    · exact (List.nodup_range L).map (fun u v huv => by omega)
    · exact List.mem_map.mpr ⟨t - b, List.mem_range.mpr (by omega), by omega⟩
  · rw [if_neg h]
    refine List.count_eq_zero_of_not_mem (fun hc => ?_)
    obtain ⟨u, hu, huv⟩ := List.mem_map.mp hc
    exact h ⟨by omega, by
      have := List.mem_range.mp hu
      omega⟩

lemma flatMap_flatMap_perm (as : List A) (bs : List B) (F : A → B → List γ) :
    (as.flatMap (fun a => bs.flatMap (fun b => F a b))).Perm
      (bs.flatMap (fun b => as.flatMap (fun a => F a b))) := by
  induction as with
  | nil => simp
  | cons a as ih =>
    simp only [List.flatMap_cons]
    refine ((List.Perm.append_left _ ih).trans ?_)
    exact List.flatMap_append_perm bs (fun b => F a b) (fun b => as.flatMap (fun a => F a b))

lemma sum_map_range_eq_single (X x0 : Nat) (h : Nat → Nat) (hx0 : x0 < X)
    (hz : ∀ x, x < X → x ≠ x0 → h x = 0) : ((List.range X).map h).sum = h x0 := by
  induction X with
  | zero => omega
  | succ X ih =>
    rw [List.range_succ, List.map_append, List.sum_append]
    by_cases hx : x0 = X
    · subst hx
      have : ((List.range x0).map h).sum = 0 := by
        refine List.sum_eq_zero (fun v hv => ?_)
        obtain ⟨x, hx, hvx⟩ := List.mem_map.mp hv
        rw [← hvx]
        exact hz x (by have := List.mem_range.mp hx; omega) (by have := List.mem_range.mp hx; omega)
      simp [this]
    · have hlt : x0 < X := by omega
      rw [ih hlt (fun x hxX hne => hz x (by omega) hne)]
      have : h X = 0 := hz X (by omega) (fun hc => hx hc.symm)
      simp [this]

end ListLemmas

section ModelLemmas

variable {α : Type} [CommRing α]

lemma sumTo_congr {f g : Nat → α} :
    ∀ {t : Nat}, (∀ l, l < t → f l = g l) → sumTo f t = sumTo g t
  | 0, _ => rfl
  | t + 1, h => by
    rw [sumTo, sumTo, sumTo_congr (fun l hl => h l (by omega)), h t (by omega)]

lemma sumTo_add (f : Nat → α) (s t : Nat) :
    sumTo f (s + t) = sumTo f s + sumTo (fun j => f (s + j)) t := by
  induction t with
  | zero => simp [sumTo]
  | succ t ih =>
    show sumTo f ((s + t) + 1) = _
    rw [sumTo, ih, sumTo]
    ring

lemma sumTo_mul (f : Nat → α) (a b : Nat) :
    sumTo f (a * b) = sumTo (fun i => sumTo (fun j => f (i * b + j)) b) a := by
  induction a with
  | zero => simp [sumTo]
  | succ a ih =>
    have h : (a + 1) * b = a * b + b := by ring
    rw [h, sumTo_add, ih, sumTo]

lemma apply_writes_cons (u : Nat → α) (w : Nat × α) (ws : List (Nat × α)) :
    apply_writes u (w :: ws) = apply_writes (Function.update u w.1 w.2) ws := rfl

lemma apply_writes_not_mem (u : Nat → α) (ws : List (Nat × α)) (t : Nat)
    (h : t ∉ ws.map Prod.fst) : apply_writes u ws t = u t := by
  induction ws generalizing u with
  | nil => rfl
  | cons w ws ih =>
    simp only [List.map_cons, List.mem_cons] at h
    push_neg at h
    rw [apply_writes_cons, ih _ h.2, Function.update_noteq h.1]

lemma apply_writes_unique (u : Nat → α) (ws : List (Nat × α)) (t : Nat) (v : α)
    (hc : (ws.map Prod.fst).count t = 1) (hm : (t, v) ∈ ws) : apply_writes u ws t = v := by
  induction ws generalizing u with
  | nil => simp at hm
  | cons w ws ih =>
    obtain ⟨w1, w2⟩ := w
    rw [apply_writes_cons]
    rcases List.mem_cons.mp hm with hw | hw
    · obtain ⟨h1, h2⟩ : t = w1 ∧ v = w2 :=
        ⟨congrArg Prod.fst hw, congrArg Prod.snd hw⟩
      subst h1; subst h2
      have hz : (ws.map Prod.fst).count t = 0 := by
        rw [List.map_cons, List.count_cons_self] at hc
        omega
      rw [apply_writes_not_mem _ _ _ (List.count_eq_zero.mp hz), Function.update_same]
    · by_cases hwt : w1 = t
      · exfalso
        subst hwt
        have hz : (ws.map Prod.fst).count w1 = 0 := by
          rw [List.map_cons, List.count_cons_self] at hc
          omega
        exact List.count_eq_zero.mp hz (List.mem_map.mpr ⟨(w1, v), hw, rfl⟩)
      · have hc' : (ws.map Prod.fst).count t = 1 := by
          rw [List.map_cons, List.count_cons_of_ne (fun h => hwt h.symm)] at hc
          exact hc
        exact ih _ hc' hw

lemma collect_writes_ok_of (cg : ConvGemm α) (mega : MatF α) (W : Nat × Nat → List (Nat × α)) :
    ∀ ps : List (Nat × Nat), (∀ p ∈ ps, tile_writes cg mega p.1 p.2 = Except.ok (W p)) →
      collect_writes cg mega ps = Except.ok (ps.flatMap W)
  | [], _ => rfl
  | p :: ps, h => by
    have h1 := h p (List.mem_cons_self p ps)
    have h2 := collect_writes_ok_of cg mega W ps (fun q hq => h q (List.mem_cons_of_mem p hq))
    simp only [collect_writes, h1, h2, List.flatMap_cons]

lemma collect_writes_ok_sub {cg : ConvGemm α} {mega : MatF α} :
    ∀ {ps : List (Nat × Nat)} {ws : List (Nat × α)},
      collect_writes cg mega ps = Except.ok ws →
      ∀ p ∈ ps, ∃ w, tile_writes cg mega p.1 p.2 = Except.ok w := by
  intro ps
  induction ps with
  | nil => intro ws _ p hp; simp at hp
  | cons p ps ih =>
    intro ws h q hq
    cases htw : tile_writes cg mega p.1 p.2 with
    | error e =>
      simp only [collect_writes, htw] at h
      exact Except.noConfusion h
    | ok w =>
      cases hcw : collect_writes cg mega ps with
      | error e =>
        simp only [collect_writes, htw, hcw] at h
        exact Except.noConfusion h
      | ok ws' =>
        rcases List.mem_cons.mp hq with hqp | hqm
        · subst hqp; exact ⟨w, htw⟩
        · exact ih hcw q hqm

lemma collect_writes_error_sub {cg : ConvGemm α} {mega : MatF α} :
    ∀ {ps : List (Nat × Nat)} {e : Fail},
      collect_writes cg mega ps = Except.error e →
      ∃ p ∈ ps, tile_writes cg mega p.1 p.2 = Except.error e := by
  intro ps
  induction ps with
  | nil => intro e h; simp [collect_writes] at h
  | cons p ps ih =>
    intro e h
    cases htw : tile_writes cg mega p.1 p.2 with
    | error e' =>
      simp only [collect_writes, htw, Except.error.injEq] at h
      exact ⟨p, List.mem_cons_self p ps, by rw [htw, h]⟩
    | ok w =>
      cases hcw : collect_writes cg mega ps with
      | error e' =>
        simp only [collect_writes, htw, hcw, Except.error.injEq] at h
        obtain ⟨q, hq, hqe⟩ := ih hcw
        exact ⟨q, List.mem_cons_of_mem p hq, by rw [hqe, h]⟩
      | ok ws' =>
        simp only [collect_writes, htw, hcw] at h
        exact Except.noConfusion h

lemma tile_writes_nhwc_no_err {cg : ConvGemm α} {mega : MatF α} {i g : Nat}
    (hfmt : cg.patch.input_shape.fmt = DataFormat.NHWC) :
    tile_writes cg mega i g ≠ Except.error Fail.err := by
  intro h
  simp only [tile_writes, hfmt] at h
  split_ifs at h <;> simp_all

end ModelLemmas

section NCHWMaster

variable {α : Type} [CommRing α] {cg : ConvGemm α} {mega : MatF α} {N : Nat} {sp : List Nat}

lemma c_panel_rm_eq (cg : ConvGemm α) (mega : MatF α) (i g : Nat) :
    c_panel_row_major cg mega i g
      = (List.range (cg.m * cg.n)).map (fun u => c_panel cg mega i g (u / cg.n) (u % cg.n)) :=
  flatMap_range_map _ _ _

lemma c_panel_tr_eq (cg : ConvGemm α) (mega : MatF α) (i g : Nat) :
    c_panel_transposed cg mega i g
      = (List.range (cg.n * cg.m)).map (fun u => c_panel cg mega i g (u % cg.m) (u / cg.m)) :=
  flatMap_range_map _ _ _

lemma nchw_c_axis (pre : NCHWPre cg mega N sp) : cg.patch.input_shape.c_axis = 1 := by
  unfold DataShape.c_axis
  rw [pre.hfmt]

lemma nchw_c_dim (pre : NCHWPre cg mega N sp) :
    cg.full_output_shape.getD cg.patch.input_shape.c_axis 0 = cg.m * cg.group := by
  rw [nchw_c_axis pre, pre.hshape]
  rfl

lemma nchw_cpg (pre : NCHWPre cg mega N sp) : co_per_group cg = cg.m := by
  unfold co_per_group
  rw [nchw_c_dim pre, Nat.mul_comm]
  exact Nat.mul_div_cancel_left cg.m pre.hG

lemma nchw_n_dim0 (pre : NCHWPre cg mega N sp) :
    cg.full_output_shape.getD cg.patch.input_shape.n_axis 0 = N := by
  rw [show cg.patch.input_shape.n_axis = 0 from rfl, pre.hshape]
  rfl

lemma nchw_subview (pre : NCHWPre cg mega N sp) : subview_shape cg = 1 :: cg.m :: sp := by
  unfold subview_shape
  rw [nchw_c_axis pre, pre.hshape, nchw_cpg pre]
  rfl

lemma nchw_targets (pre : NCHWPre cg mega N sp) (i g : Nat) :
    output_subview_targets cg i g
      = (List.range (cg.m * sp.prod)).map
          (fun u => (i * (cg.m * cg.group) + g * cg.m) * sp.prod + u) := by
  unfold output_subview_targets
  rw [nchw_subview pre]
  have h1 : indicesOf (1 :: cg.m :: sp)
      = (indicesOf (cg.m :: sp)).map (fun rest => 0 :: rest) := by
    show (List.range 1).flatMap _ = _
    rw [show List.range 1 = [0] from rfl]
    simp
  rw [h1, List.map_map,
    show indicesOf (cg.m :: sp)
      = (List.range cg.m).flatMap (fun c => (indicesOf sp).map (fun q => c :: q)) from rfl,
    List.map_flatMap]
  have h2 : ∀ c, ((indicesOf sp).map (fun q => c :: q)).map
        ((fun idx =>
          flatIndex cg.full_output_shape
            ((idx.set cg.patch.input_shape.n_axis (idx.getD cg.patch.input_shape.n_axis 0 + i)).set
              cg.patch.input_shape.c_axis
                (idx.getD cg.patch.input_shape.c_axis 0 + g * co_per_group cg))) ∘
          (fun rest => 0 :: rest))
      = (List.range sp.prod).map
          (fun v => (i * (cg.m * cg.group) + g * cg.m) * sp.prod + (c * sp.prod + v)) := by
    intro c
    rw [List.map_map, ← map_flatIndex_indicesOf sp, List.map_map]
    refine List.map_congr_left (fun q _ => ?_)
    simp only [Function.comp_apply, DataShape.n_axis, nchw_c_axis pre, nchw_cpg pre,
      List.set_cons_zero, List.set_cons_succ, List.getD_cons_zero, List.getD_cons_succ,
      pre.hshape, flatIndex, List.prod_cons]
    ring
  rw [flatMap_congr_left (fun c _ => h2 c)]
  have h3 : ∀ c, (List.range sp.prod).map
        (fun v => (i * (cg.m * cg.group) + g * cg.m) * sp.prod + (c * sp.prod + v))
      = ((List.range sp.prod).map (fun v => c * sp.prod + v)).map
          (fun w => (i * (cg.m * cg.group) + g * cg.m) * sp.prod + w) := by
    intro c
    rw [List.map_map]
    rfl
  rw [flatMap_congr_left (fun c _ => h3 c), ← List.map_flatMap, ← range_mul_flatMap]

lemma tile_writes_nchw (pre : NCHWPre cg mega N sp) {i g : Nat}
    (hi : i < N) (hg : g < cg.group) :
    tile_writes cg mega i g = Except.ok (nchw_tile cg mega sp i g) := by
  have g1 : i + 1 ≤ cg.full_output_shape.getD cg.patch.input_shape.n_axis 0 := by
    rw [nchw_n_dim0 pre]; omega
  have g2 : (g + 1) * co_per_group cg
      ≤ cg.full_output_shape.getD cg.patch.input_shape.c_axis 0 := by
    rw [nchw_cpg pre, nchw_c_dim pre, Nat.mul_comm cg.m cg.group]
    exact Nat.mul_le_mul_right cg.m (by omega)
  have g3 : co_per_group cg * (g + 1) ≤ cg.kernel.rows := by
    rw [nchw_cpg pre]
    exact le_trans (Nat.mul_le_mul_left cg.m (by omega)) pre.hk
  have g4 : mm_offset cg i g + cg.n ≤ mega.cols := by
    unfold mm_offset
    have h2 : (i + 1) * cg.group ≤ N * cg.group := Nat.mul_le_mul_right cg.group (by omega)
    have h3 : i * cg.group + cg.group = (i + 1) * cg.group := by ring
    have h1 : g + i * cg.group + 1 ≤ cg.group * N := by
      have h4 : cg.group * N = N * cg.group := by ring
      omega
    calc cg.n * (g + i * cg.group) + cg.n
        = cg.n * (g + i * cg.group + 1) := by ring
      _ ≤ cg.n * (cg.group * N) := Nat.mul_le_mul_left cg.n h1
      _ = cg.n * cg.group * N := by ring
      _ ≤ mega.cols := pre.hmega
  have g5 : cg.m * cg.n = (subview_shape cg).prod := by
    rw [nchw_subview pre, pre.hn]
    simp [List.prod_cons]
  unfold tile_writes
  rw [if_pos g1, if_pos g2, if_pos g3, if_pos g4]
  simp only [pre.hfmt]
  rw [if_pos g5, nchw_targets pre, c_panel_rm_eq, pre.hn, List.zip_map']
  rfl

lemma mem_tile_pairs {p : Nat × Nat} :
    p ∈ tile_pairs cg ↔ p.1 < cg.patch.input_shape.n_dim ∧ p.2 < cg.group := by
  unfold tile_pairs
  constructor
  · intro h
    obtain ⟨i, hi, hp⟩ := List.mem_flatMap.mp h
    obtain ⟨g, hg, hpg⟩ := List.mem_map.mp hp
    subst hpg
    exact ⟨List.mem_range.mp hi, List.mem_range.mp hg⟩
  · intro ⟨h1, h2⟩
    exact List.mem_flatMap.mpr ⟨p.1, List.mem_range.mpr h1,
      List.mem_map.mpr ⟨p.2, List.mem_range.mpr h2, rfl⟩⟩

lemma collect_nchw (pre : NCHWPre cg mega N sp) :
    collect_writes cg mega (tile_pairs cg) = Except.ok (nchw_writes cg mega N sp) := by
  rw [collect_writes_ok_of cg mega (fun p => nchw_tile cg mega sp p.1 p.2) _
    (fun p hp => by
      obtain ⟨h1, h2⟩ := mem_tile_pairs.mp hp
      rw [pre.hN] at h1
      exact tile_writes_nchw pre h1 h2)]
  unfold tile_pairs nchw_writes
  rw [pre.hN, List.flatMap_assoc]
  refine congrArg Except.ok (flatMap_congr_left (fun i _ => ?_))
  rw [List.flatMap_map]

lemma nchw_writes_fst :
    (nchw_writes cg mega N sp).map Prod.fst
      = List.range (N * (cg.m * cg.group * sp.prod)) := by
  unfold nchw_writes nchw_tile
  rw [List.map_flatMap]
  have h1 : ∀ i : Nat, ((List.range cg.group).flatMap (fun g =>
        (List.range (cg.m * sp.prod)).map (fun u =>
          ((i * (cg.m * cg.group) + g * cg.m) * sp.prod + u,
           c_panel cg mega i g (u / sp.prod) (u % sp.prod))))).map Prod.fst
      = (List.range cg.group).flatMap (fun g => (List.range (cg.m * sp.prod)).map
          (fun u => (i * (cg.m * cg.group) + g * cg.m) * sp.prod + u)) := by
    intro i
    rw [List.map_flatMap]
    exact flatMap_congr_left (fun g _ => by
      rw [List.map_map]
      exact List.map_congr_left (fun u _ => rfl))
  rw [flatMap_congr_left (fun i _ => h1 i)]
  have h2 : ∀ i g : Nat, (List.range (cg.m * sp.prod)).map
        (fun u => (i * (cg.m * cg.group) + g * cg.m) * sp.prod + u)
      = ((List.range (cg.m * sp.prod)).map (fun u => g * (cg.m * sp.prod) + u)).map
          (fun w => i * (cg.m * cg.group * sp.prod) + w) := by
    intro i g
    rw [List.map_map]
    exact List.map_congr_left (fun u _ => by simp only [Function.comp_apply]; ring)
  have h3 : ∀ i : Nat, (List.range cg.group).flatMap (fun g =>
        (List.range (cg.m * sp.prod)).map
          (fun u => (i * (cg.m * cg.group) + g * cg.m) * sp.prod + u))
      = (List.range (cg.group * (cg.m * sp.prod))).map
          (fun w => i * (cg.m * cg.group * sp.prod) + w) := by
    intro i
    rw [flatMap_congr_left (fun g _ => h2 i g), ← List.map_flatMap, ← range_mul_flatMap]
  rw [flatMap_congr_left (fun i _ => h3 i),
    show cg.group * (cg.m * sp.prod) = cg.m * cg.group * sp.prod from by ring,
    ← range_mul_flatMap]

lemma nchw_count {t : Nat} (ht : t < N * (cg.m * cg.group * sp.prod)) :
    ((nchw_writes cg mega N sp).map Prod.fst).count t = 1 := by
  rw [nchw_writes_fst, count_range_eq, if_pos ht]

lemma nchw_mem_write {i c r : Nat} (hi : i < N) (hc : c < cg.m * cg.group) (hr : r < sp.prod) :
    (i * (cg.m * cg.group * sp.prod) + c * sp.prod + r,
     c_panel cg mega i (c / cg.m) (c % cg.m) r) ∈ nchw_writes cg mega N sp := by
  have hm0 : 0 < cg.m := by
    rcases Nat.eq_zero_or_pos cg.m with h | h
    · rw [h] at hc; simp at hc
    · exact h
  have hP0 : 0 < sp.prod := by omega
  refine List.mem_flatMap.mpr ⟨i, List.mem_range.mpr hi, ?_⟩
  refine List.mem_flatMap.mpr ⟨c / cg.m, List.mem_range.mpr ?_, ?_⟩
  · exact (Nat.div_lt_iff_lt_mul hm0).mpr (by rw [Nat.mul_comm]; exact hc)
  · refine List.mem_map.mpr ⟨(c % cg.m) * sp.prod + r, List.mem_range.mpr ?_, ?_⟩
    · have h5 : c % cg.m < cg.m := Nat.mod_lt c hm0
      calc (c % cg.m) * sp.prod + r < (c % cg.m) * sp.prod + sp.prod := by omega
        _ = (c % cg.m + 1) * sp.prod := by ring
        _ ≤ cg.m * sp.prod := Nat.mul_le_mul_right sp.prod (by omega)
    · have hu1 : ((c % cg.m) * sp.prod + r) / sp.prod = c % cg.m := by
        rw [Nat.add_comm, Nat.mul_comm, Nat.add_mul_div_left _ _ hP0, Nat.div_eq_of_lt hr]
        omega
      have hu2 : ((c % cg.m) * sp.prod + r) % sp.prod = r := by
        rw [Nat.add_comm, Nat.mul_comm, Nat.add_mul_mod_self_left, Nat.mod_eq_of_lt hr]
      have hdm : cg.m * (c / cg.m) + c % cg.m = c := Nat.div_add_mod c cg.m
      have key : c * sp.prod = cg.m * (c / cg.m) * sp.prod + (c % cg.m) * sp.prod := by
        rw [← Nat.add_mul, hdm]
      rw [hu1, hu2]
      refine congrArg₂ Prod.mk ?_ rfl
      calc (i * (cg.m * cg.group) + c / cg.m * cg.m) * sp.prod + ((c % cg.m) * sp.prod + r)
          = i * (cg.m * cg.group * sp.prod)
            + (cg.m * (c / cg.m) * sp.prod + (c % cg.m) * sp.prod) + r := by ring
        _ = i * (cg.m * cg.group * sp.prod) + c * sp.prod + r := by rw [← key]

lemma nchw_pos_lt {i c r : Nat} (hi : i < N) (hc : c < cg.m * cg.group) (hr : r < sp.prod) :
    i * (cg.m * cg.group * sp.prod) + c * sp.prod + r < N * (cg.m * cg.group * sp.prod) := by
  have h1 : c * sp.prod + r < cg.m * cg.group * sp.prod := by
    calc c * sp.prod + r < c * sp.prod + sp.prod := by omega
      _ = (c + 1) * sp.prod := by ring
      _ ≤ cg.m * cg.group * sp.prod := Nat.mul_le_mul_right _ (by omega)
  calc i * (cg.m * cg.group * sp.prod) + c * sp.prod + r
      < i * (cg.m * cg.group * sp.prod) + cg.m * cg.group * sp.prod := by omega
    _ = (i + 1) * (cg.m * cg.group * sp.prod) := by ring
    _ ≤ N * (cg.m * cg.group * sp.prod) := Nat.mul_le_mul_right _ (by omega)

lemma nchw_apply_entry (pre : NCHWPre cg mega N sp) (u : Nat → α) {i c r : Nat}
    (hi : i < N) (hc : c < cg.m * cg.group) (hr : r < sp.prod) :
    apply_writes u (nchw_writes cg mega N sp) (i * (cg.m * cg.group * sp.prod) + c * sp.prod + r)
      = sumTo (fun l => cg.kernel.entry c l
          * mega.entry l (mm_offset cg i (c / cg.m) + r)) cg.k := by
  rw [apply_writes_unique u _ _ _ (nchw_count (nchw_pos_lt hi hc hr)) (nchw_mem_write hi hc hr)]
  unfold c_panel
  rw [nchw_cpg pre]
  have hrow : cg.m * (c / cg.m) + c % cg.m = c := Nat.div_add_mod c cg.m
  simp only [hrow]

lemma conv_gemm_nchw_ok (pre : NCHWPre cg mega N sp) (hbias : BiasOk cg) (u : Nat → α) :
    cg.conv_gemm mega u = Except.ok ⟨cg.full_output_shape,
      fun t => apply_writes u (nchw_writes cg mega N sp) t + bias_value cg t⟩ := by
  unfold ConvGemm.conv_gemm
  have hca : cg.patch.input_shape.c_axis < cg.full_output_shape.length := by
    rw [nchw_c_axis pre, pre.hshape]
    simp
  rw [if_pos hca, collect_nchw pre]
  cases hb : cg.bias with
  | none =>
    dsimp only
    congr 1
    congr 1
    funext t
    simp only [bias_value, hb]
    rw [add_zero]
  | some b =>
    have hcompat : broadcast_compat cg.full_output_shape b.shape = true := by
      have h := hbias
      simp only [BiasOk, hb] at h
      exact h
    dsimp only
    rw [if_pos hcompat]
    congr 1
    congr 1
    funext t
    simp only [bias_value, hb]

lemma conv_gemm_nchw_entry (pre : NCHWPre cg mega N sp) (hbias : BiasOk cg) (u : Nat → α)
    {i c r : Nat} (hi : i < N) (hc : c < cg.m * cg.group) (hr : r < sp.prod) :
    okAt (cg.conv_gemm mega u) (i * (cg.m * cg.group * sp.prod) + c * sp.prod + r)
      = sumTo (fun l => cg.kernel.entry c l
          * mega.entry l (mm_offset cg i (c / cg.m) + r)) cg.k
        + bias_value cg (i * (cg.m * cg.group * sp.prod) + c * sp.prod + r) := by
  rw [conv_gemm_nchw_ok pre hbias u]
  simp only [okAt]
  rw [nchw_apply_entry pre u hi hc hr]

lemma conv_gemm_nchw_shape (pre : NCHWPre cg mega N sp) (hbias : BiasOk cg) (u : Nat → α) :
    okShape (cg.conv_gemm mega u) = N :: (cg.m * cg.group) :: sp := by
  rw [conv_gemm_nchw_ok pre hbias u]
  simp only [okShape]
  exact pre.hshape

end NCHWMaster

section NHWCMaster

variable {α : Type} [CommRing α] {cg : ConvGemm α} {mega : MatF α} {N : Nat} {sp : List Nat}

lemma flatMap_singleton_map {A B : Type} (l : List A) (f : A → B) :
    l.flatMap (fun a => [f a]) = l.map f := by
  induction l with
  | nil => rfl
  | cons x l ih => simp only [List.flatMap_cons, List.map_cons, ih]; rfl

lemma indicesOf_singleton (d : Nat) : indicesOf [d] = (List.range d).map (fun c => [c]) := by
  show (List.range d).flatMap (fun i => ([[]] : List (List Nat)).map (fun rest => i :: rest)) = _
  simp only [List.map_cons, List.map_nil]
  exact flatMap_singleton_map (List.range d) (fun c => [c])

lemma nhwc_c_axis (pre : NHWCPre cg mega N sp) :
    cg.patch.input_shape.c_axis = sp.length + 1 := by
  unfold DataShape.c_axis
  rw [pre.hfmt, pre.hrank]
  rfl

lemma nhwc_c_dim (pre : NHWCPre cg mega N sp) :
    cg.full_output_shape.getD cg.patch.input_shape.c_axis 0 = cg.m * cg.group := by
  rw [nhwc_c_axis pre, pre.hshape]
  show (sp ++ [cg.m * cg.group]).getD sp.length 0 = cg.m * cg.group
  exact getD_append_cons sp [] 0

lemma nhwc_cpg (pre : NHWCPre cg mega N sp) : co_per_group cg = cg.m := by
  unfold co_per_group
  rw [nhwc_c_dim pre, Nat.mul_comm]
  exact Nat.mul_div_cancel_left cg.m pre.hG

lemma nhwc_n_dim0 (pre : NHWCPre cg mega N sp) :
    cg.full_output_shape.getD cg.patch.input_shape.n_axis 0 = N := by
  rw [show cg.patch.input_shape.n_axis = 0 from rfl, pre.hshape]
  rfl

lemma nhwc_subview (pre : NHWCPre cg mega N sp) :
    subview_shape cg = 1 :: sp ++ [cg.m] := by
  unfold subview_shape
  rw [nhwc_c_axis pre, pre.hshape, nhwc_cpg pre]
  show 1 :: ((sp ++ [cg.m * cg.group]).set sp.length cg.m) = 1 :: (sp ++ [cg.m])
  rw [set_append_cons sp []]

lemma nhwc_targets (pre : NHWCPre cg mega N sp) (i g : Nat) :
    output_subview_targets cg i g
      = (List.range (sp.prod * cg.m)).map (fun u =>
          i * (sp.prod * (cg.m * cg.group)) + (u / cg.m) * (cg.m * cg.group)
            + g * cg.m + u % cg.m) := by
  unfold output_subview_targets
  rw [nhwc_subview pre]
  have h1 : indicesOf (1 :: sp ++ [cg.m])
      = (indicesOf (sp ++ [cg.m])).map (fun rest => 0 :: rest) := by
    show (List.range 1).flatMap _ = _
    rw [show List.range 1 = [0] from rfl]
    simp
  rw [h1, List.map_map, indicesOf_append sp [cg.m], indicesOf_singleton, List.map_flatMap]
  have h2 : ∀ q ∈ indicesOf sp, (((List.range cg.m).map (fun c => [c])).map
        (fun y => q ++ y)).map
        ((fun idx =>
          flatIndex cg.full_output_shape
            ((idx.set cg.patch.input_shape.n_axis (idx.getD cg.patch.input_shape.n_axis 0 + i)).set
              cg.patch.input_shape.c_axis
                (idx.getD cg.patch.input_shape.c_axis 0 + g * co_per_group cg))) ∘
          (fun rest => 0 :: rest))
      = (List.range cg.m).map (fun c =>
          i * (sp.prod * (cg.m * cg.group)) + flatIndex sp q * (cg.m * cg.group)
            + g * cg.m + c) := by
    intro q hq
    have hql : q.length = sp.length := mem_indicesOf_length hq
    rw [List.map_map, List.map_map]
    refine List.map_congr_left (fun c _ => ?_)
    simp only [Function.comp_apply, DataShape.n_axis, nhwc_c_axis pre, nhwc_cpg pre,
      List.set_cons_zero, List.set_cons_succ, List.getD_cons_zero, List.getD_cons_succ,
      pre.hshape]
    rw [← hql, getD_append_cons q [] 0, set_append_cons q []]
    rw [show flatIndex (N :: sp ++ [cg.m * cg.group]) ((0 + i) :: (q ++ [c + g * cg.m]))
        = (0 + i) * ((sp ++ [cg.m * cg.group]).prod)
          + flatIndex (sp ++ [cg.m * cg.group]) (q ++ [c + g * cg.m]) from rfl,
      flatIndex_append [cg.m * cg.group] [c + g * cg.m] hql, List.prod_append]
    simp only [flatIndex, List.prod_cons, List.prod_nil]
    ring
  rw [flatMap_congr_left h2,
    show (indicesOf sp).flatMap (fun q => (List.range cg.m).map (fun c =>
        i * (sp.prod * (cg.m * cg.group)) + flatIndex sp q * (cg.m * cg.group)
          + g * cg.m + c))
      = ((indicesOf sp).map (flatIndex sp)).flatMap (fun v => (List.range cg.m).map (fun c =>
          i * (sp.prod * (cg.m * cg.group)) + v * (cg.m * cg.group) + g * cg.m + c)) from
      (List.flatMap_map (flatIndex sp)
        (fun v => (List.range cg.m).map (fun c =>
          i * (sp.prod * (cg.m * cg.group)) + v * (cg.m * cg.group) + g * cg.m + c))
        (indicesOf sp)).symm,
    map_flatIndex_indicesOf,
    flatMap_range_map sp.prod cg.m (fun v c =>
      i * (sp.prod * (cg.m * cg.group)) + v * (cg.m * cg.group) + g * cg.m + c)]

lemma tile_writes_nhwc (pre : NHWCPre cg mega N sp) {i g : Nat}
    (hi : i < N) (hg : g < cg.group) :
    tile_writes cg mega i g = Except.ok (nhwc_tile cg mega sp i g) := by
  have g1 : i + 1 ≤ cg.full_output_shape.getD cg.patch.input_shape.n_axis 0 := by
    rw [nhwc_n_dim0 pre]; omega
  have g2 : (g + 1) * co_per_group cg
      ≤ cg.full_output_shape.getD cg.patch.input_shape.c_axis 0 := by
    rw [nhwc_cpg pre, nhwc_c_dim pre, Nat.mul_comm cg.m cg.group]
    exact Nat.mul_le_mul_right cg.m (by omega)
  have g3 : co_per_group cg * (g + 1) ≤ cg.kernel.rows := by
    rw [nhwc_cpg pre]
    exact le_trans (Nat.mul_le_mul_left cg.m (by omega)) pre.hk
  have g4 : mm_offset cg i g + cg.n ≤ mega.cols := by
    unfold mm_offset
    have h2 : (i + 1) * cg.group ≤ N * cg.group := Nat.mul_le_mul_right cg.group (by omega)
    have h3 : i * cg.group + cg.group = (i + 1) * cg.group := by ring
    have h1 : g + i * cg.group + 1 ≤ cg.group * N := by
      have h4 : cg.group * N = N * cg.group := by ring
      omega
    calc cg.n * (g + i * cg.group) + cg.n
        = cg.n * (g + i * cg.group + 1) := by ring
      _ ≤ cg.n * (cg.group * N) := Nat.mul_le_mul_left cg.n h1
      _ = cg.n * cg.group * N := by ring
      _ ≤ mega.cols := pre.hmega
  unfold tile_writes
  rw [if_pos g1, if_pos g2, if_pos g3, if_pos g4]
  simp only [pre.hfmt]
  rw [nhwc_targets pre, c_panel_tr_eq, pre.hn, List.zip_map']
  rfl

lemma collect_nhwc (pre : NHWCPre cg mega N sp) :
    collect_writes cg mega (tile_pairs cg) = Except.ok (nhwc_writes cg mega N sp) := by
  rw [collect_writes_ok_of cg mega (fun p => nhwc_tile cg mega sp p.1 p.2) _
    (fun p hp => by
      obtain ⟨h1, h2⟩ := mem_tile_pairs.mp hp
      rw [pre.hN] at h1
      exact tile_writes_nhwc pre h1 h2)]
  unfold tile_pairs nhwc_writes
  rw [pre.hN, List.flatMap_assoc]
  refine congrArg Except.ok (flatMap_congr_left (fun i _ => ?_))
  rw [List.flatMap_map]

lemma nhwc_block_perm (i : Nat) :
    ((List.range cg.group).flatMap (fun g => (nhwc_tile cg mega sp i g).map Prod.fst)).Perm
      ((List.range (sp.prod * (cg.m * cg.group))).map
        (fun w => i * (sp.prod * (cg.m * cg.group)) + w)) := by
  have htile : ∀ g : Nat, (nhwc_tile cg mega sp i g).map Prod.fst
      = (List.range sp.prod).flatMap (fun fq => (List.range cg.m).map (fun c =>
          i * (sp.prod * (cg.m * cg.group)) + fq * (cg.m * cg.group) + g * cg.m + c)) := by
    intro g
    unfold nhwc_tile
    rw [List.map_map,
      flatMap_range_map sp.prod cg.m (fun fq c =>
        i * (sp.prod * (cg.m * cg.group)) + fq * (cg.m * cg.group) + g * cg.m + c)]
    exact List.map_congr_left (fun u _ => rfl)
  rw [flatMap_congr_left (fun g _ => htile g)]
  refine (flatMap_flatMap_perm (List.range cg.group) (List.range sp.prod)
    (fun g fq => (List.range cg.m).map (fun c =>
      i * (sp.prod * (cg.m * cg.group)) + fq * (cg.m * cg.group) + g * cg.m + c))).trans ?_
  have h5 : ∀ fq : Nat, (List.range cg.group).flatMap (fun g =>
        (List.range cg.m).map (fun c =>
          i * (sp.prod * (cg.m * cg.group)) + fq * (cg.m * cg.group) + g * cg.m + c))
      = (List.range (cg.group * cg.m)).map (fun w =>
          (i * (sp.prod * (cg.m * cg.group)) + fq * (cg.m * cg.group)) + w) := by
    intro fq
    have h6 : ∀ g : Nat, (List.range cg.m).map (fun c =>
          i * (sp.prod * (cg.m * cg.group)) + fq * (cg.m * cg.group) + g * cg.m + c)
        = ((List.range cg.m).map (fun c => g * cg.m + c)).map
            (fun w => (i * (sp.prod * (cg.m * cg.group)) + fq * (cg.m * cg.group)) + w) := by
      intro g
      rw [List.map_map]
      exact List.map_congr_left (fun c _ => by simp only [Function.comp_apply]; ring)
    rw [flatMap_congr_left (fun g _ => h6 g), ← List.map_flatMap, ← range_mul_flatMap]
  rw [flatMap_congr_left (fun fq _ => h5 fq),
    show cg.group * cg.m = cg.m * cg.group from by ring]
  have h7 : ∀ fq : Nat, (List.range (cg.m * cg.group)).map (fun w =>
        (i * (sp.prod * (cg.m * cg.group)) + fq * (cg.m * cg.group)) + w)
      = ((List.range (cg.m * cg.group)).map (fun w => fq * (cg.m * cg.group) + w)).map
          (fun w => i * (sp.prod * (cg.m * cg.group)) + w) := by
    intro fq
    rw [List.map_map]
    exact List.map_congr_left (fun w _ => by simp only [Function.comp_apply]; ring)
  rw [flatMap_congr_left (fun fq _ => h7 fq), ← List.map_flatMap, ← range_mul_flatMap]

lemma nhwc_count {t : Nat} (ht : t < N * (sp.prod * (cg.m * cg.group))) :
    ((nhwc_writes cg mega N sp).map Prod.fst).count t = 1 := by
  have hQ0 : sp.prod * (cg.m * cg.group) ≠ 0 := by
    intro h
    rw [h, Nat.mul_zero] at ht
    omega
  unfold nhwc_writes
  rw [List.map_flatMap,
    flatMap_congr_left (fun i _ => List.map_flatMap _ _ _),
    List.count_flatMap]
  have hcnt : ∀ i : Nat, ((List.range cg.group).flatMap
        (fun g => (nhwc_tile cg mega sp i g).map Prod.fst)).count t
      = if i * (sp.prod * (cg.m * cg.group)) ≤ t
          ∧ t < i * (sp.prod * (cg.m * cg.group)) + sp.prod * (cg.m * cg.group)
        then 1 else 0 := by
    intro i
    rw [(nhwc_block_perm i).count_eq, count_map_add_range]
  have hstep : ((List.range N).map (List.count t ∘ fun i =>
        (List.range cg.group).flatMap
          (fun g => (nhwc_tile cg mega sp i g).map Prod.fst))).sum
      = ((List.range N).map (fun i =>
          if i * (sp.prod * (cg.m * cg.group)) ≤ t
            ∧ t < i * (sp.prod * (cg.m * cg.group)) + sp.prod * (cg.m * cg.group)
          then 1 else 0)).sum :=
    congrArg List.sum (List.map_congr_left (fun i _ => hcnt i))
  rw [hstep]
  have hi0 : t / (sp.prod * (cg.m * cg.group)) < N :=
    (Nat.div_lt_iff_lt_mul (by omega)).mpr ht
  rw [sum_map_range_eq_single N (t / (sp.prod * (cg.m * cg.group))) _ hi0 ?hz]
  case hz =>
    intro x hx hne
    rw [if_neg]
    intro ⟨hc1, hc2⟩
    refine hne ?_
    refine (Nat.div_eq_of_lt_le hc1 ?_).symm
    calc t < x * (sp.prod * (cg.m * cg.group)) + sp.prod * (cg.m * cg.group) := hc2
      _ = (x + 1) * (sp.prod * (cg.m * cg.group)) := by ring
      _ = Nat.succ x * (sp.prod * (cg.m * cg.group)) := by rfl
  rw [if_pos]
  constructor
  · exact Nat.div_mul_le_self t _
  · have hmod : t % (sp.prod * (cg.m * cg.group)) < sp.prod * (cg.m * cg.group) :=
      Nat.mod_lt t (by omega)
    have hdm : sp.prod * (cg.m * cg.group) * (t / (sp.prod * (cg.m * cg.group)))
        + t % (sp.prod * (cg.m * cg.group)) = t := Nat.div_add_mod t _
    have hcomm : t / (sp.prod * (cg.m * cg.group)) * (sp.prod * (cg.m * cg.group))
        = sp.prod * (cg.m * cg.group) * (t / (sp.prod * (cg.m * cg.group))) :=
      Nat.mul_comm _ _
    omega

lemma nhwc_mem_write {i fq c : Nat} (hi : i < N) (hfq : fq < sp.prod)
    (hc : c < cg.m * cg.group) :
    (i * (sp.prod * (cg.m * cg.group)) + fq * (cg.m * cg.group) + c,
     c_panel cg mega i (c / cg.m) (c % cg.m) fq) ∈ nhwc_writes cg mega N sp := by
  have hm0 : 0 < cg.m := by
    rcases Nat.eq_zero_or_pos cg.m with h | h
    · rw [h] at hc; simp at hc
    · exact h
  refine List.mem_flatMap.mpr ⟨i, List.mem_range.mpr hi, ?_⟩
  refine List.mem_flatMap.mpr ⟨c / cg.m, List.mem_range.mpr ?_, ?_⟩
  · exact (Nat.div_lt_iff_lt_mul hm0).mpr (by rw [Nat.mul_comm]; exact hc)
  · refine List.mem_map.mpr ⟨fq * cg.m + c % cg.m, List.mem_range.mpr ?_, ?_⟩
    · have h5 : c % cg.m < cg.m := Nat.mod_lt c hm0
      calc fq * cg.m + c % cg.m < fq * cg.m + cg.m := by omega
        _ = (fq + 1) * cg.m := by ring
        _ ≤ sp.prod * cg.m := Nat.mul_le_mul_right cg.m (by omega)
    · have h5 : c % cg.m < cg.m := Nat.mod_lt c hm0
      have hu1 : (fq * cg.m + c % cg.m) / cg.m = fq := by
        rw [Nat.add_comm, Nat.mul_comm, Nat.add_mul_div_left _ _ hm0, Nat.div_eq_of_lt h5]
        omega
      have hu2 : (fq * cg.m + c % cg.m) % cg.m = c % cg.m := by
        rw [Nat.add_comm, Nat.mul_comm, Nat.add_mul_mod_self_left, Nat.mod_eq_of_lt h5]
      have hdm : cg.m * (c / cg.m) + c % cg.m = c := Nat.div_add_mod c cg.m
      rw [hu1, hu2]
      refine congrArg₂ Prod.mk ?_ rfl
      calc i * (sp.prod * (cg.m * cg.group)) + fq * (cg.m * cg.group)
            + (c / cg.m) * cg.m + c % cg.m
          = i * (sp.prod * (cg.m * cg.group)) + fq * (cg.m * cg.group)
            + (cg.m * (c / cg.m) + c % cg.m) := by ring
        _ = i * (sp.prod * (cg.m * cg.group)) + fq * (cg.m * cg.group) + c := by rw [hdm]

lemma nhwc_pos_lt {i fq c : Nat} (hi : i < N) (hfq : fq < sp.prod)
    (hc : c < cg.m * cg.group) :
    i * (sp.prod * (cg.m * cg.group)) + fq * (cg.m * cg.group) + c
      < N * (sp.prod * (cg.m * cg.group)) := by
  have h1 : fq * (cg.m * cg.group) + c < sp.prod * (cg.m * cg.group) := by
    calc fq * (cg.m * cg.group) + c < fq * (cg.m * cg.group) + cg.m * cg.group := by omega
      _ = (fq + 1) * (cg.m * cg.group) := by ring
      _ ≤ sp.prod * (cg.m * cg.group) := Nat.mul_le_mul_right _ (by omega)
  calc i * (sp.prod * (cg.m * cg.group)) + fq * (cg.m * cg.group) + c
      < i * (sp.prod * (cg.m * cg.group)) + sp.prod * (cg.m * cg.group) := by omega
    _ = (i + 1) * (sp.prod * (cg.m * cg.group)) := by ring
    _ ≤ N * (sp.prod * (cg.m * cg.group)) := Nat.mul_le_mul_right _ (by omega)

lemma nhwc_apply_entry (pre : NHWCPre cg mega N sp) (u : Nat → α) {i fq c : Nat}
    (hi : i < N) (hfq : fq < sp.prod) (hc : c < cg.m * cg.group) :
    apply_writes u (nhwc_writes cg mega N sp)
        (i * (sp.prod * (cg.m * cg.group)) + fq * (cg.m * cg.group) + c)
      = sumTo (fun l => cg.kernel.entry c l
          * mega.entry l (mm_offset cg i (c / cg.m) + fq)) cg.k := by
  rw [apply_writes_unique u _ _ _ (nhwc_count (nhwc_pos_lt hi hfq hc))
    (nhwc_mem_write hi hfq hc)]
  unfold c_panel
  rw [nhwc_cpg pre]
  have hrow : cg.m * (c / cg.m) + c % cg.m = c := Nat.div_add_mod c cg.m
  simp only [hrow]

lemma conv_gemm_nhwc_ok (pre : NHWCPre cg mega N sp) (hbias : BiasOk cg) (u : Nat → α) :
    cg.conv_gemm mega u = Except.ok ⟨cg.full_output_shape,
      fun t => apply_writes u (nhwc_writes cg mega N sp) t + bias_value cg t⟩ := by
  unfold ConvGemm.conv_gemm
  have hca : cg.patch.input_shape.c_axis < cg.full_output_shape.length := by
    rw [nhwc_c_axis pre, pre.hshape]
    simp
  rw [if_pos hca, collect_nhwc pre]
  cases hb : cg.bias with
  | none =>
    dsimp only
    congr 1
    congr 1
    funext t
    simp only [bias_value, hb]
    rw [add_zero]
  | some b =>
    have hcompat : broadcast_compat cg.full_output_shape b.shape = true := by
      have h := hbias
      simp only [BiasOk, hb] at h
      exact h
    dsimp only
    rw [if_pos hcompat]
    congr 1
    congr 1
    funext t
    simp only [bias_value, hb]

lemma conv_gemm_nhwc_entry (pre : NHWCPre cg mega N sp) (hbias : BiasOk cg) (u : Nat → α)
    {i fq c : Nat} (hi : i < N) (hfq : fq < sp.prod) (hc : c < cg.m * cg.group) :
    okAt (cg.conv_gemm mega u)
        (i * (sp.prod * (cg.m * cg.group)) + fq * (cg.m * cg.group) + c)
      = sumTo (fun l => cg.kernel.entry c l
          * mega.entry l (mm_offset cg i (c / cg.m) + fq)) cg.k
        + bias_value cg
            (i * (sp.prod * (cg.m * cg.group)) + fq * (cg.m * cg.group) + c) := by
  rw [conv_gemm_nhwc_ok pre hbias u]
  simp only [okAt]
  rw [nhwc_apply_entry pre u hi hfq hc]

lemma conv_gemm_nhwc_shape (pre : NHWCPre cg mega N sp) (hbias : BiasOk cg) (u : Nat → α) :
    okShape (cg.conv_gemm mega u) = N :: sp ++ [cg.m * cg.group] := by
  rw [conv_gemm_nhwc_ok pre hbias u]
  simp only [okShape]
  exact pre.hshape

lemma tile_writes_mega_oob {i g : Nat} (h4 : ¬ (mm_offset cg i g + cg.n ≤ mega.cols)) :
    tile_writes cg mega i g = Except.error Fail.panic := by
  unfold tile_writes
  by_cases c1 : i + 1 ≤ cg.full_output_shape.getD cg.patch.input_shape.n_axis 0
  · rw [if_pos c1]
    by_cases c2 : (g + 1) * co_per_group cg
        ≤ cg.full_output_shape.getD cg.patch.input_shape.c_axis 0
    · rw [if_pos c2]
      by_cases c3 : co_per_group cg * (g + 1) ≤ cg.kernel.rows
      · rw [if_pos c3, if_neg h4]
      · rw [if_neg c3]
    · rw [if_neg c2]
  · rw [if_neg c1]

lemma conv_gemm_nhwc_no_err (hfmt : cg.patch.input_shape.fmt = DataFormat.NHWC)
    (mega : MatF α) (u : Nat → α) :
    resultErr (cg.conv_gemm mega u) = false := by
  unfold ConvGemm.conv_gemm
  by_cases hca : cg.patch.input_shape.c_axis < cg.full_output_shape.length
  · rw [if_pos hca]
    cases hcw : collect_writes cg mega (tile_pairs cg) with
    | error e =>
      cases e with
      | panic => rfl
      | err =>
        exfalso
        obtain ⟨p, _, hp⟩ := collect_writes_error_sub hcw
        exact tile_writes_nhwc_no_err hfmt hp
    | ok ws =>
      cases hb : cg.bias with
      | none => rfl
      | some b =>
        by_cases hbc : broadcast_compat cg.full_output_shape b.shape = true
        · dsimp only; rw [if_pos hbc]; rfl
        · dsimp only; rw [if_neg hbc]; rfl
  · rw [if_neg hca]
    rfl

lemma conv_gemm_nhwc_deficient_panics (hfmt : cg.patch.input_shape.fmt = DataFormat.NHWC)
    (hcols : mega.cols < cg.n * cg.group * cg.patch.input_shape.n_dim) (u : Nat → α) :
    resultPanic (cg.conv_gemm mega u) = true := by
  unfold ConvGemm.conv_gemm
  by_cases hca : cg.patch.input_shape.c_axis < cg.full_output_shape.length
  · rw [if_pos hca]
    cases hcw : collect_writes cg mega (tile_pairs cg) with
    | error e =>
      cases e with
      | panic => rfl
      | err =>
        exfalso
        obtain ⟨p, _, hp⟩ := collect_writes_error_sub hcw
        exact tile_writes_nhwc_no_err hfmt hp
    | ok ws =>
      exfalso
      have h1 : 0 < cg.n * cg.group * cg.patch.input_shape.n_dim := by omega
      have hG : 0 < cg.group := by
        rcases Nat.eq_zero_or_pos cg.group with h | h
        · rw [h, Nat.mul_zero, Nat.zero_mul] at h1; omega
        · exact h
      have hnd : 0 < cg.patch.input_shape.n_dim := by
        rcases Nat.eq_zero_or_pos cg.patch.input_shape.n_dim with h | h
        · rw [h, Nat.mul_zero] at h1; omega
        · exact h
      obtain ⟨w, hw⟩ := collect_writes_ok_sub hcw
        (cg.patch.input_shape.n_dim - 1, cg.group - 1)
        (mem_tile_pairs.mpr ⟨by omega, by omega⟩)
      have hoob : ¬ (mm_offset cg (cg.patch.input_shape.n_dim - 1) (cg.group - 1)
          + cg.n ≤ mega.cols) := by
        unfold mm_offset
        obtain ⟨G1, hG1⟩ : ∃ G1, cg.group = G1 + 1 := ⟨cg.group - 1, by omega⟩
        obtain ⟨d1, hd1⟩ : ∃ d1, cg.patch.input_shape.n_dim = d1 + 1 :=
          ⟨cg.patch.input_shape.n_dim - 1, by omega⟩
        rw [hG1, hd1] at hcols ⊢
        simp only [Nat.add_sub_cancel]
        have e : cg.n * (G1 + d1 * (G1 + 1)) + cg.n = cg.n * (G1 + 1) * (d1 + 1) := by ring
        omega
      rw [tile_writes_mega_oob hoob] at hw
      exact Except.noConfusion hw
  · rw [if_neg hca]
    rfl

lemma mm_offset_inbounds_iff (cg : ConvGemm α) (cols : Nat) :
    (∀ i < cg.patch.input_shape.n_dim, ∀ g < cg.group, mm_offset cg i g + cg.n ≤ cols)
      ↔ cg.n * cg.group * cg.patch.input_shape.n_dim ≤ cols := by
  constructor
  · intro h
    rcases Nat.eq_zero_or_pos cg.patch.input_shape.n_dim with hnd | hnd
    · rw [hnd, Nat.mul_zero]; omega
    rcases Nat.eq_zero_or_pos cg.group with hG | hG
    · rw [hG, Nat.mul_zero, Nat.zero_mul]; omega
    have hlast := h (cg.patch.input_shape.n_dim - 1) (by omega) (cg.group - 1) (by omega)
    unfold mm_offset at hlast
    obtain ⟨G1, hG1⟩ : ∃ G1, cg.group = G1 + 1 := ⟨cg.group - 1, by omega⟩
    obtain ⟨d1, hd1⟩ : ∃ d1, cg.patch.input_shape.n_dim = d1 + 1 :=
      ⟨cg.patch.input_shape.n_dim - 1, by omega⟩
    rw [hG1, hd1] at hlast ⊢
    simp only [Nat.add_sub_cancel] at hlast
    have e : cg.n * (G1 + d1 * (G1 + 1)) + cg.n = cg.n * (G1 + 1) * (d1 + 1) := by ring
    omega
  · intro h i hi g hg
    unfold mm_offset
    have h2 : (i + 1) * cg.group ≤ cg.patch.input_shape.n_dim * cg.group :=
      Nat.mul_le_mul_right cg.group (by omega)
    have h3 : i * cg.group + cg.group = (i + 1) * cg.group := by ring
    have h1 : g + i * cg.group + 1 ≤ cg.group * cg.patch.input_shape.n_dim := by
      have h4 : cg.group * cg.patch.input_shape.n_dim
          = cg.patch.input_shape.n_dim * cg.group := by ring
      omega
    calc cg.n * (g + i * cg.group) + cg.n
        = cg.n * (g + i * cg.group + 1) := by ring
      _ ≤ cg.n * (cg.group * cg.patch.input_shape.n_dim) := Nat.mul_le_mul_left cg.n h1
      _ = cg.n * cg.group * cg.patch.input_shape.n_dim := by ring
      _ ≤ cols := h

end NHWCMaster

section BiasLemmas

variable {α : Type} [CommRing α]

lemma unflatten_length (ds : List Nat) (t : Nat) : (unflatten ds t).length = ds.length := by
  induction ds generalizing t with
  | nil => rfl
  | cons d ds ih => simp [unflatten, ih]

lemma unflatten_forall₂ {ds : List Nat} {t : Nat} (ht : t < ds.prod) :
    List.Forall₂ (fun x d => x < d) (unflatten ds t) ds := by
  induction ds generalizing t with
  | nil => exact List.Forall₂.nil
  | cons d ds ih =>
    rw [List.prod_cons] at ht
    have hP0 : 0 < ds.prod := by
      rcases Nat.eq_zero_or_pos ds.prod with h | h
      · rw [h, Nat.mul_zero] at ht; omega
      · exact h
    refine List.Forall₂.cons ?_ (ih (Nat.mod_lt t hP0))
    exact (Nat.div_lt_iff_lt_mul hP0).mpr (by rw [Nat.mul_comm] at ht ⊢; exact ht)

lemma forall₂_drop {A B : Type} {R : A → B → Prop} :
    ∀ (n : Nat) {xs : List A} {ys : List B}, List.Forall₂ R xs ys →
      List.Forall₂ R (xs.drop n) (ys.drop n) := by
  intro n
  induction n with
  | zero => intro xs ys h; exact h
  | succ n ih =>
    intro xs ys h
    cases h with
    | nil => exact List.Forall₂.nil
    | cons hx h' => exact ih h'

lemma bias_index_forall₂ : ∀ (bs os xs : List Nat),
    (List.zip os bs).all (fun p => p.2 == p.1 || p.2 == 1) = true →
    List.Forall₂ (fun x d => x < d) xs os →
    bs.length = os.length →
    List.Forall₂ (fun x d => x < d) (List.zipWith (fun d i => if d = 1 then 0 else i) bs xs) bs := by
  intro bs
  induction bs with
  | nil => intro os xs _ _ _; exact List.Forall₂.nil
  | cons b bs ih =>
    intro os xs hall hf hlen
    cases os with
    | nil => simp at hlen
    | cons o os =>
      cases hf with
      | cons hx hf' =>
        rename_i x xs'
        simp only [List.zip_cons_cons, List.all_cons, Bool.and_eq_true, Bool.or_eq_true,
          beq_iff_eq] at hall
        refine List.Forall₂.cons ?_ (ih os xs' hall.2 hf' (by simpa using hlen))
        show (if b = 1 then (0 : Nat) else x) < b
        by_cases hb1 : b = 1
        · rw [if_pos hb1, hb1]
          omega
        · rw [if_neg hb1]
          rcases hall.1 with h | h
          · rw [h]
            exact hx
          · exact absurd h hb1

lemma flatIndex_lt {ds xs : List Nat}
    (h : List.Forall₂ (fun x d => x < d) xs ds) : flatIndex ds xs < ds.prod := by
  induction h with
  | nil => exact Nat.zero_lt_one
  | cons hx h' ih =>
    rename_i x d xs' ds'
    show x * ds'.prod + flatIndex ds' xs' < d * ds'.prod
    calc x * ds'.prod + flatIndex ds' xs' < x * ds'.prod + ds'.prod := by omega
      _ = (x + 1) * ds'.prod := by ring
      _ ≤ d * ds'.prod := Nat.mul_le_mul_right _ (by omega)

lemma bias_contrib_zero {outShape : List Nat} {b : TensorFn α}
    (hcompat : broadcast_compat outShape b.shape = true)
    (hzero : ∀ s < b.shape.prod, b.data s = 0)
    {t : Nat} (ht : t < outShape.prod) :
    bias_contrib outShape b t = 0 := by
  simp only [bias_contrib]
  apply hzero
  apply flatIndex_lt
  unfold broadcast_compat at hcompat
  rw [Bool.and_eq_true, decide_eq_true_eq] at hcompat
  refine bias_index_forall₂ b.shape (outShape.drop (outShape.length - b.shape.length)) _
    hcompat.2 ?_ ?_
  · exact forall₂_drop _ (unflatten_forall₂ ht)
  · rw [List.length_drop]
    omega

lemma bias_value_congr {cg1 cg2 : ConvGemm α} (hb : cg1.bias = cg2.bias)
    (hs : cg1.full_output_shape = cg2.full_output_shape) (t : Nat) :
    bias_value cg1 t = bias_value cg2 t := by
  unfold bias_value
  rw [← hb]
  cases cg1.bias with
  | none => rfl
  | some b => exact congrArg (fun s => bias_contrib s b t) hs

lemma tile_writes_bias_irrel (cg : ConvGemm α) (b' : Option (TensorFn α)) (mega : MatF α)
    (i g : Nat) :
    tile_writes { cg with bias := b' } mega i g = tile_writes cg mega i g := rfl

lemma tile_pairs_bias_irrel (cg : ConvGemm α) (b' : Option (TensorFn α)) :
    tile_pairs { cg with bias := b' } = tile_pairs cg := rfl

lemma collect_writes_bias_irrel (cg : ConvGemm α) (b' : Option (TensorFn α)) (mega : MatF α) :
    ∀ ps : List (Nat × Nat),
      collect_writes { cg with bias := b' } mega ps = collect_writes cg mega ps
  | [] => rfl
  | p :: ps => by
    simp only [collect_writes, tile_writes_bias_irrel,
      collect_writes_bias_irrel cg b' mega ps]

lemma conv_gemm_bias_none (cg : ConvGemm α) (mega : MatF α) (u : Nat → α) :
    ConvGemm.conv_gemm { cg with bias := none } mega u
      = if cg.patch.input_shape.c_axis < cg.full_output_shape.length then
          match collect_writes cg mega (tile_pairs cg) with
          | Except.error e => Except.error e
          | Except.ok ws => Except.ok ⟨cg.full_output_shape, apply_writes u ws⟩
        else Except.error Fail.panic := by
  unfold ConvGemm.conv_gemm
  rw [tile_pairs_bias_irrel, collect_writes_bias_irrel]

end BiasLemmas



section Claims

/-- C8: InferenceRulesOp::rules declares exactly these constraints and nothing
else: one input, one output, input and output element type both equal to the
construction-time element type dt = D::datum_type(), and the output shape
pinned to full_output_shape exactly. -/
theorem C8_rules_exact {α : Type} [CommRing α] {δ : Type} (cg : ConvGemm α) (dt : δ) :
    cg.rules dt = [Constraint.inputsLen 1, Constraint.outputsLen 1,
      Constraint.inputDatumType 0 dt, Constraint.outputDatumType 0 dt,
      Constraint.outputShape 0 cg.full_output_shape] := rfl

/-- C4: the claim that m * group ≠ full_output_shape[c_axis] fails fast is
violated by the code: construction performs no validation (derive(new)) and
this NHWC evaluation with m * group = 2 but only 1 output channel returns Ok,
silently truncating the scatter instead of erroring. -/
theorem C4_no_fail_fast :
    resultOk (c4_cg.conv_gemm c4_mega (fun _ => (0 : Int))) = true
      ∧ c4_cg.m * c4_cg.group
          ≠ c4_cg.full_output_shape.getD c4_cg.patch.input_shape.c_axis 0 := by
  decide

/-- C5: the claim that inconsistent dimensions are always rejected with an
error is violated by the code: this NHWC evaluation declares n = 2 against a
spatial extent of 3 (panel shorter than the destination view), yet returns Ok;
the zip scatter silently truncates and the output element at flat position 2
still holds the uninitialized value 37. -/
theorem C5_silent_truncation :
    resultOk (c5_cg.conv_gemm c5_mega (fun _ => (37 : Int))) = true
      ∧ okAt (c5_cg.conv_gemm c5_mega (fun _ => (37 : Int))) 2 = 37
      ∧ c5_cg.m * c5_cg.n < (subview_shape c5_cg).prod := by
  decide

/-- C10 counterexample: a mega-matrix with fewer than n * group * batch columns
for which conv_gemm DOES return a Result error (the NCHW into_shape failure at
tile (0,0) fires before any out-of-bounds mega-matrix slice is taken), refuting
the claim that such calls never return a Result error. -/
theorem C10_counterexample :
    resultErr (c10_cg.conv_gemm c10_mega (fun _ => (0 : Int))) = true
      ∧ c10_mega.cols < c10_cg.n * c10_cg.group * c10_cg.patch.input_shape.n_dim := by
  decide

/-- C10 (amended): in NHWC format no TractResult error path exists, so a
mega-matrix with fewer than n * group * batch_count columns makes conv_gemm
panic (an out-of-bounds slice_axis) rather than return an error; and the
mega-matrix column slice is in bounds for every tile exactly when the
mega-matrix has at least n * group * batch_count columns. -/
theorem C10_amended_nhwc_deficient_panics {α : Type} [CommRing α]
    (cg : ConvGemm α) (mega : MatF α) (u : Nat → α)
    (hfmt : cg.patch.input_shape.fmt = DataFormat.NHWC)
    (hcols : mega.cols < cg.n * cg.group * cg.patch.input_shape.n_dim) :
    resultPanic (cg.conv_gemm mega u) = true
      ∧ ∀ cols2 : Nat,
          (∀ i < cg.patch.input_shape.n_dim, ∀ g < cg.group,
            mm_offset cg i g + cg.n ≤ cols2)
          ↔ cg.n * cg.group * cg.patch.input_shape.n_dim ≤ cols2 :=
  ⟨conv_gemm_nhwc_deficient_panics hfmt hcols u,
   fun cols2 => mm_offset_inbounds_iff cg cols2⟩

/-- C10 amended witness: concrete NHWC evaluation whose mega-matrix is one
column short panics, and the in-bounds condition is equivalent to the column
count bound. -/
theorem C10_amended_witness :
    resultPanic (c10w_cg.conv_gemm c10w_mega (fun _ => (0 : Int))) = true
      ∧ ∀ cols2 : Nat,
          (∀ i < c10w_cg.patch.input_shape.n_dim, ∀ g < c10w_cg.group,
            mm_offset c10w_cg i g + c10w_cg.n ≤ cols2)
          ↔ c10w_cg.n * c10w_cg.group * c10w_cg.patch.input_shape.n_dim ≤ cols2 :=
  C10_amended_nhwc_deficient_panics c10w_cg c10w_mega (fun _ => 0) (by decide) (by decide)

/-- C2: under the declared shape preconditions (in particular
m * group = full_output_shape[channel_axis]) the batch/group scatter loop
produces a write trace in which every flat position of the output tensor is
written exactly once, and the evaluation result is exactly that trace replayed
over the uninitialized buffer with the bias added element-wise once at the
end, after all tiles — never per tile. -/
theorem C2_write_once_bias_after {α : Type} [CommRing α] (cg : ConvGemm α) (mega : MatF α)
    (N : Nat) (sp : List Nat)
    (hpre : NCHWPre cg mega N sp ∨ NHWCPre cg mega N sp) (hbias : BiasOk cg) :
    ∃ ws, collect_writes cg mega (tile_pairs cg) = Except.ok ws
      ∧ (∀ t, t < cg.full_output_shape.prod → (ws.map Prod.fst).count t = 1)
      ∧ ∀ u, cg.conv_gemm mega u
          = Except.ok ⟨cg.full_output_shape, fun t => apply_writes u ws t + bias_value cg t⟩ := by
  rcases hpre with pre | pre
  · refine ⟨nchw_writes cg mega N sp, collect_nchw pre, ?_,
      fun u => conv_gemm_nchw_ok pre hbias u⟩
    intro t ht
    rw [pre.hshape, List.prod_cons, List.prod_cons] at ht
    exact nchw_count ht
  · refine ⟨nhwc_writes cg mega N sp, collect_nhwc pre, ?_,
      fun u => conv_gemm_nhwc_ok pre hbias u⟩
    intro t ht
    rw [pre.hshape] at ht
    simp only [List.prod_cons, List.prod_append, List.prod_nil, Nat.mul_one] at ht
    exact nhwc_count (by rw [Nat.mul_assoc] at ht; exact ht)

/-- C2 witness: the write-once property at a concrete two-batch two-group NCHW
evaluation. -/
theorem C2_witness :
    ∃ ws, collect_writes c2_cg c2_mega (tile_pairs c2_cg) = Except.ok ws
      ∧ (∀ t, t < c2_cg.full_output_shape.prod → (ws.map Prod.fst).count t = 1)
      ∧ ∀ u, c2_cg.conv_gemm c2_mega u
          = Except.ok ⟨c2_cg.full_output_shape,
              fun t => apply_writes u ws t + bias_value c2_cg t⟩ :=
  C2_write_once_bias_after c2_cg c2_mega 2 [1]
    (Or.inl ⟨by decide, by decide, by decide, by decide, by decide, by decide, by decide⟩)
    (show BiasOk c2_cg from trivial)

/-- C3: with batch as the outer and group as the inner loop, tile (i, g)
multiplies kernel rows [g * co_per_group, (g+1) * co_per_group) by the
mega-matrix columns [mm_offset, mm_offset + n) with mm_offset = n*(g + i*group),
and scatters the result into the output view of batch i and channel range
[g * co_per_group, (g+1) * co_per_group): element (i, g*m + r, p) of the output
is the dot product of kernel row g*m + r with mega-matrix column mm_offset + p. -/
theorem C3_tile_addressing {α : Type} [CommRing α] (cg : ConvGemm α) (mega : MatF α)
    (N : Nat) (sp : List Nat) (pre : NCHWPre cg mega N sp) (hbias : BiasOk cg)
    (u : Nat → α) :
    tile_pairs cg
        = (List.range N).flatMap (fun i => (List.range cg.group).map (fun g => (i, g)))
      ∧ ∀ i < N, ∀ g < cg.group, ∀ r < cg.m, ∀ p < sp.prod,
          okAt (cg.conv_gemm mega u)
              (i * (cg.m * cg.group * sp.prod) + (g * cg.m + r) * sp.prod + p)
            = sumTo (fun l => cg.kernel.entry (g * cg.m + r) l
                * mega.entry l (mm_offset cg i g + p)) cg.k
              + bias_value cg
                  (i * (cg.m * cg.group * sp.prod) + (g * cg.m + r) * sp.prod + p) := by
  constructor
  · unfold tile_pairs
    rw [pre.hN]
  · intro i hi g hg r hr p hp
    have hm0 : 0 < cg.m := by omega
    have hc : g * cg.m + r < cg.m * cg.group := by
      calc g * cg.m + r < g * cg.m + cg.m := by omega
        _ = (g + 1) * cg.m := by ring
        _ ≤ cg.group * cg.m := Nat.mul_le_mul_right cg.m (by omega)
        _ = cg.m * cg.group := by ring
    have hdiv : (g * cg.m + r) / cg.m = g := by
      rw [Nat.add_comm, Nat.mul_comm, Nat.add_mul_div_left _ _ hm0, Nat.div_eq_of_lt hr]
      omega
    have hE := conv_gemm_nchw_entry pre hbias u hi hc hp
    simp only [hdiv] at hE
    exact hE

/-- C3 witness: the addressing property at a concrete one-batch two-group NCHW
evaluation with two channels per group. -/
theorem C3_witness :
    tile_pairs c3_cg
        = (List.range 1).flatMap (fun i => (List.range c3_cg.group).map (fun g => (i, g)))
      ∧ ∀ i < 1, ∀ g < c3_cg.group, ∀ r < c3_cg.m, ∀ p < ([1] : List Nat).prod,
          okAt (c3_cg.conv_gemm c3_mega (fun _ => (0 : Int)))
              (i * (c3_cg.m * c3_cg.group * ([1] : List Nat).prod)
                + (g * c3_cg.m + r) * ([1] : List Nat).prod + p)
            = sumTo (fun l => c3_cg.kernel.entry (g * c3_cg.m + r) l
                * c3_mega.entry l (mm_offset c3_cg i g + p)) c3_cg.k
              + bias_value c3_cg
                  (i * (c3_cg.m * c3_cg.group * ([1] : List Nat).prod)
                    + (g * c3_cg.m + r) * ([1] : List Nat).prod + p) :=
  C3_tile_addressing c3_cg c3_mega 1 [1]
    ⟨by decide, by decide, by decide, by decide, by decide, by decide, by decide⟩
    (show BiasOk c3_cg from trivial) (fun _ => 0)

/-- C6: the same logical convolution evaluated once with channel-first (NCHW)
output and once with channel-last (NHWC) output — same kernel, mega-matrix,
GEMM dimensions, group count, and logically corresponding bias — produces
element-wise equal logical values: the NCHW element at (batch i, channel c,
spatial p) equals the NHWC element at (batch i, spatial p, channel c),
independent of the two uninitialized buffers. -/
theorem C6_layout_equivalence {α : Type} [CommRing α] (cg1 cg2 : ConvGemm α)
    (mega : MatF α) (N : Nat) (sp : List Nat)
    (pre1 : NCHWPre cg1 mega N sp) (pre2 : NHWCPre cg2 mega N sp)
    (hm : cg1.m = cg2.m) (hG : cg1.group = cg2.group) (hk : cg1.k = cg2.k)
    (hker : cg1.kernel = cg2.kernel)
    (hbias1 : BiasOk cg1) (hbias2 : BiasOk cg2)
    (hbv : ∀ i < N, ∀ c < cg1.m * cg1.group, ∀ p < sp.prod,
      bias_value cg1 (i * (cg1.m * cg1.group * sp.prod) + c * sp.prod + p)
        = bias_value cg2 (i * (sp.prod * (cg2.m * cg2.group)) + p * (cg2.m * cg2.group) + c))
    (u1 u2 : Nat → α) :
    ∀ i < N, ∀ c < cg1.m * cg1.group, ∀ p < sp.prod,
      okAt (cg1.conv_gemm mega u1) (i * (cg1.m * cg1.group * sp.prod) + c * sp.prod + p)
        = okAt (cg2.conv_gemm mega u2)
            (i * (sp.prod * (cg2.m * cg2.group)) + p * (cg2.m * cg2.group) + c) := by
  intro i hi c hc p hp
  have hc2 : c < cg2.m * cg2.group := by rw [← hm, ← hG]; exact hc
  rw [conv_gemm_nchw_entry pre1 hbias1 u1 hi hc hp,
    conv_gemm_nhwc_entry pre2 hbias2 u2 hi hp hc2]
  have hn12 : cg1.n = cg2.n := by rw [pre1.hn, pre2.hn]
  congr 1
  · rw [hk]
    refine sumTo_congr (fun l _ => ?_)
    simp only [mm_offset, hker, hm, hG, hn12]
  · exact hbv i hi c hc p hp

/-- C6 witness: the layout equivalence at a concrete one-batch one-group
configuration with two spatial positions, evaluated in both layouts. -/
theorem C6_witness :
    okAt (c6_nchw.conv_gemm c6_mega (fun _ => (0 : Int)))
        (0 * (c6_nchw.m * c6_nchw.group * ([2] : List Nat).prod)
          + 0 * ([2] : List Nat).prod + 1)
      = okAt (c6_nhwc.conv_gemm c6_mega (fun _ => (1 : Int)))
          (0 * (([2] : List Nat).prod * (c6_nhwc.m * c6_nhwc.group))
            + 1 * (c6_nhwc.m * c6_nhwc.group) + 0) :=
  C6_layout_equivalence c6_nchw c6_nhwc c6_mega 1 [2]
    ⟨by decide, by decide, by decide, by decide, by decide, by decide, by decide⟩
    ⟨by decide, by decide, by decide, by decide, by decide, by decide, by decide, by decide⟩
    (by decide) (by decide) (by decide) rfl
    (show BiasOk c6_nchw from trivial) (show BiasOk c6_nhwc from trivial)
    (by decide)
    (fun _ => 0) (fun _ => 1)
    0 (by decide) 0 (by decide) 1 (by decide)

/-- C7: for group = G > 1, the output restricted to the channel partition of
group g depends only on the kernel's row range [g*m, (g+1)*m) and on the
mega-matrix columns of group g's tiles: two evaluations whose kernels agree on
those rows and whose mega-matrices agree on those columns (and share the other
construction parameters and bias) produce identical output on partition g,
whatever their inputs are elsewhere. -/
theorem C7_group_isolation {α : Type} [CommRing α] (cg1 cg2 : ConvGemm α)
    (mega1 mega2 : MatF α) (N : Nat) (sp : List Nat) (g : Nat)
    (pre1 : NCHWPre cg1 mega1 N sp) (pre2 : NCHWPre cg2 mega2 N sp)
    (hm : cg1.m = cg2.m) (hG : cg1.group = cg2.group) (hk : cg1.k = cg2.k)
    (hbias1 : BiasOk cg1) (hbeq : cg1.bias = cg2.bias)
    (hg : g < cg1.group)
    (hker : ∀ r < cg1.m, ∀ l < cg1.k,
      cg1.kernel.entry (g * cg1.m + r) l = cg2.kernel.entry (g * cg1.m + r) l)
    (hmeg : ∀ l < cg1.k, ∀ i < N, ∀ j < cg1.n,
      mega1.entry l (cg1.n * (g + i * cg1.group) + j)
        = mega2.entry l (cg1.n * (g + i * cg1.group) + j))
    (u1 u2 : Nat → α) :
    ∀ i < N, ∀ r < cg1.m, ∀ p < sp.prod,
      okAt (cg1.conv_gemm mega1 u1)
          (i * (cg1.m * cg1.group * sp.prod) + (g * cg1.m + r) * sp.prod + p)
        = okAt (cg2.conv_gemm mega2 u2)
            (i * (cg1.m * cg1.group * sp.prod) + (g * cg1.m + r) * sp.prod + p) := by
  have hshapes : cg1.full_output_shape = cg2.full_output_shape := by
    rw [pre1.hshape, pre2.hshape, hm, hG]
  have hbias2 : BiasOk cg2 := by
    have h := hbias1
    unfold BiasOk at h ⊢
    rw [← hbeq, ← hshapes]
    exact h
  intro i hi r hr p hp
  have hm0 : 0 < cg1.m := by omega
  have hc1 : g * cg1.m + r < cg1.m * cg1.group := by
    calc g * cg1.m + r < g * cg1.m + cg1.m := by omega
      _ = (g + 1) * cg1.m := by ring
      _ ≤ cg1.group * cg1.m := Nat.mul_le_mul_right cg1.m (by omega)
      _ = cg1.m * cg1.group := by ring
  have hc2 : g * cg1.m + r < cg2.m * cg2.group := by rw [← hm, ← hG]; exact hc1
  have hdiv1 : (g * cg1.m + r) / cg1.m = g := by
    rw [Nat.add_comm, Nat.mul_comm, Nat.add_mul_div_left _ _ hm0, Nat.div_eq_of_lt hr]
    omega
  have hdiv2 : (g * cg1.m + r) / cg2.m = g := by rw [← hm]; exact hdiv1
  have hE1 := conv_gemm_nchw_entry pre1 hbias1 u1 hi hc1 hp
  have hE2 := conv_gemm_nchw_entry pre2 hbias2 u2 hi hc2 hp
  simp only [hdiv1] at hE1
  simp only [hdiv2] at hE2
  simp only [← hm, ← hG] at hE2
  rw [hE1, hE2]
  have hn12 : cg1.n = cg2.n := by rw [pre1.hn, pre2.hn]
  congr 1
  · rw [hk]
    refine sumTo_congr (fun l hl => ?_)
    have hl1 : l < cg1.k := by rw [hk]; exact hl
    have hp' : p < cg1.n := by rw [pre1.hn]; exact hp
    rw [hker r hr l hl1]
    simp only [mm_offset]
    rw [← hn12, ← hG, hmeg l hl1 i hi p hp']
  · exact bias_value_congr hbeq hshapes _

/-- C7 witness: two concrete two-group evaluations that agree on the kernel
rows and mega-matrix columns of group 1 but differ arbitrarily on group 0
produce the same output on group 1's channel partition. -/
theorem C7_witness :
    okAt (c7_a.conv_gemm c7_mega_a (fun _ => (0 : Int)))
        (0 * (c7_a.m * c7_a.group * ([1] : List Nat).prod)
          + (1 * c7_a.m + 0) * ([1] : List Nat).prod + 0)
      = okAt (c7_b.conv_gemm c7_mega_b (fun _ => (5 : Int)))
          (0 * (c7_a.m * c7_a.group * ([1] : List Nat).prod)
            + (1 * c7_a.m + 0) * ([1] : List Nat).prod + 0) :=
  C7_group_isolation c7_a c7_b c7_mega_a c7_mega_b 1 [1] 1
    ⟨by decide, by decide, by decide, by decide, by decide, by decide, by decide⟩
    ⟨by decide, by decide, by decide, by decide, by decide, by decide, by decide⟩
    (by decide) (by decide) (by decide)
    (show BiasOk c7_a from trivial) rfl
    (by decide) (by decide) (by decide)
    (fun _ => 0) (fun _ => 5)
    0 (by decide) 0 (by decide) 0 (by decide)

/-- C9: an all-zero bias is an identity for the bias-addition step: evaluating
with bias = Some (zero tensor) gives exactly the same outcome as evaluating
with bias = None — the same failures, and the same output values on every
in-range element. -/
theorem C9_zero_bias_identity {α : Type} [CommRing α] (cg : ConvGemm α) (b : TensorFn α)
    (mega : MatF α) (u : Nat → α)
    (hb : cg.bias = some b)
    (hcompat : broadcast_compat cg.full_output_shape b.shape = true)
    (hzero : ∀ s < b.shape.prod, b.data s = 0) :
    (∀ e, cg.conv_gemm mega u = Except.error e
        ↔ ConvGemm.conv_gemm { cg with bias := none } mega u = Except.error e)
    ∧ ∀ T T0 : TensorFn α, cg.conv_gemm mega u = Except.ok T
        → ConvGemm.conv_gemm { cg with bias := none } mega u = Except.ok T0
        → T.shape = T0.shape ∧ ∀ t < cg.full_output_shape.prod, T.data t = T0.data t := by
  by_cases hca : cg.patch.input_shape.c_axis < cg.full_output_shape.length
  · cases hres : collect_writes cg mega (tile_pairs cg) with
    | error e' =>
      have hA : cg.conv_gemm mega u = Except.error e' := by
        unfold ConvGemm.conv_gemm
        rw [if_pos hca, hres]
      have hB : ConvGemm.conv_gemm { cg with bias := none } mega u = Except.error e' := by
        rw [conv_gemm_bias_none, if_pos hca, hres]
      refine ⟨fun e => by rw [hA, hB], fun T T0 hT hT0 => ?_⟩
      rw [hA] at hT
      exact Except.noConfusion hT
    | ok ws =>
      have hA : cg.conv_gemm mega u = Except.ok ⟨cg.full_output_shape,
          fun t => apply_writes u ws t + bias_contrib cg.full_output_shape b t⟩ := by
        unfold ConvGemm.conv_gemm
        rw [if_pos hca, hres]
        dsimp only
        rw [hb]
        dsimp only
        rw [if_pos hcompat]
      have hB : ConvGemm.conv_gemm { cg with bias := none } mega u
          = Except.ok ⟨cg.full_output_shape, apply_writes u ws⟩ := by
        rw [conv_gemm_bias_none, if_pos hca, hres]
      refine ⟨fun e => ?_, fun T T0 hT hT0 => ?_⟩
      · rw [hA, hB]
        constructor <;> intro h <;> exact Except.noConfusion h
      · rw [hA] at hT
        rw [hB] at hT0
        injection hT with h1
        injection hT0 with h2
        subst h1
        subst h2
        refine ⟨rfl, fun t ht => ?_⟩
        show apply_writes u ws t + bias_contrib cg.full_output_shape b t = apply_writes u ws t
        rw [bias_contrib_zero hcompat hzero ht, add_zero]
  · have hA : cg.conv_gemm mega u = Except.error Fail.panic := by
      unfold ConvGemm.conv_gemm
      rw [if_neg hca]
    have hB : ConvGemm.conv_gemm { cg with bias := none } mega u = Except.error Fail.panic := by
      rw [conv_gemm_bias_none, if_neg hca]
    refine ⟨fun e => by rw [hA, hB], fun T T0 hT hT0 => ?_⟩
    rw [hA] at hT
    exact Except.noConfusion hT

/-- C9 witness: a concrete evaluation with an all-zero bias tensor agrees with
the bias-free evaluation. -/
theorem C9_witness :
    (∀ e, c9_cg.conv_gemm c9_mega (fun _ => (0 : Int)) = Except.error e
        ↔ ConvGemm.conv_gemm { c9_cg with bias := none } c9_mega (fun _ => (0 : Int))
            = Except.error e)
    ∧ ∀ T T0 : TensorFn Int, c9_cg.conv_gemm c9_mega (fun _ => (0 : Int)) = Except.ok T
        → ConvGemm.conv_gemm { c9_cg with bias := none } c9_mega (fun _ => (0 : Int))
            = Except.ok T0
        → T.shape = T0.shape
          ∧ ∀ t < c9_cg.full_output_shape.prod, T.data t = T0.data t :=
  C9_zero_bias_identity c9_cg c9_bias c9_mega (fun _ => 0) rfl (by decide) (by decide)

/-- C1: for group = 1 and batch = 1, with the kernel logically reshaped to 2-D
and the mega-matrix produced by the (spec-modelled) im2col extractor for a
stride-1 unpadded 2-D convolution, the output of conv_gemm equals the direct
mathematical definition of convolution (the naive triple-loop reference),
plus the bias contribution when a bias is present; the output shape is
exactly full_output_shape. Arithmetic is exact over the commutative ring
modelling the element type D. -/
theorem C1_matches_naive_conv {α : Type} [CommRing α]
    (cg : ConvGemm α) (cin kh kw outH outW : Nat)
    (K4 : Nat → Nat → Nat → Nat → α) (input : Nat → Nat → Nat → α) (u : Nat → α)
    (hfmt : cg.patch.input_shape.fmt = DataFormat.NCHW)
    (hgroup : cg.group = 1)
    (hbatch : cg.patch.input_shape.n_dim = 1)
    (hshape : cg.full_output_shape = [1, cg.m, outH, outW])
    (hker : cg.kernel = reshapeKernel cg.m cin kh kw K4)
    (hk : cg.k = cin * (kh * kw))
    (hn : cg.n = outH * outW)
    (hbias : BiasOk cg) :
    okShape (cg.conv_gemm (im2col cin kh kw outH outW input) u) = [1, cg.m, outH, outW]
    ∧ ∀ o < cg.m, ∀ y < outH, ∀ x < outW,
        okAt (cg.conv_gemm (im2col cin kh kw outH outW input) u)
            (o * (outH * outW) + (y * outW + x))
          = naiveConv cin kh kw K4 input o y x
            + bias_value cg (o * (outH * outW) + (y * outW + x)) := by
  have hP : ([outH, outW] : List Nat).prod = outH * outW := by
    simp [List.prod_cons]
  have pre : NCHWPre cg (im2col cin kh kw outH outW input) 1 [outH, outW] := by
    refine ⟨hfmt, ?_, hbatch, by omega, ?_, ?_, ?_⟩
    · rw [hshape, hgroup, Nat.mul_one]
    · rw [hn, hP]
    · rw [hker, hgroup, Nat.mul_one]
      exact Nat.le_refl cg.m
    · show cg.n * cg.group * 1 ≤ (im2col cin kh kw outH outW input).cols
      rw [hn, hgroup]
      show outH * outW * 1 * 1 ≤ outH * outW
      omega
  constructor
  · have hsh := conv_gemm_nchw_shape pre hbias u
    rw [hgroup, Nat.mul_one] at hsh
    exact hsh
  · intro o ho y hy x hx
    have hc : o < cg.m * cg.group := by rw [hgroup, Nat.mul_one]; exact ho
    have hp : y * outW + x < ([outH, outW] : List Nat).prod := by
      rw [hP]
      calc y * outW + x < y * outW + outW := by omega
        _ = (y + 1) * outW := by ring
        _ ≤ outH * outW := Nat.mul_le_mul_right outW (by omega)
    have hE := conv_gemm_nchw_entry pre hbias u (show (0 : Nat) < 1 by omega) hc hp
    have hpos : (0 : Nat) * (cg.m * cg.group * ([outH, outW] : List Nat).prod)
        + o * ([outH, outW] : List Nat).prod + (y * outW + x)
        = o * (outH * outW) + (y * outW + x) := by
      rw [hP]
      ring
    rw [hpos] at hE
    rw [hE]
    congr 1
    have ho0 : o / cg.m = 0 := Nat.div_eq_of_lt ho
    have hmm : mm_offset cg 0 (o / cg.m) + (y * outW + x) = y * outW + x := by
      rw [ho0]
      unfold mm_offset
      simp
    simp only [hmm, hker]
    rw [hk, sumTo_mul _ cin (kh * kw)]
    unfold naiveConv
    refine sumTo_congr (fun cc _ => ?_)
    rw [sumTo_mul _ kh kw]
    refine sumTo_congr (fun dy hdy => ?_)
    refine sumTo_congr (fun dx hdx => ?_)
    have hkw0 : 0 < kw := by omega
    have hkhkw0 : 0 < kh * kw := by
      calc 0 < (dy + 1) * kw := by
            have : 0 < dy + 1 := by omega
            exact Nat.mul_pos this hkw0
        _ ≤ kh * kw := Nat.mul_le_mul_right kw (by omega)
    have hlt : dy * kw + dx < kh * kw := by
      calc dy * kw + dx < dy * kw + kw := by omega
        _ = (dy + 1) * kw := by ring
        _ ≤ kh * kw := Nat.mul_le_mul_right kw (by omega)
    have e1 : (cc * (kh * kw) + (dy * kw + dx)) / (kh * kw) = cc := by
      rw [Nat.add_comm, Nat.mul_comm cc (kh * kw), Nat.add_mul_div_left _ _ hkhkw0,
        Nat.div_eq_of_lt hlt]
      omega
    have e2 : (cc * (kh * kw) + (dy * kw + dx)) % (kh * kw) = dy * kw + dx := by
      rw [Nat.add_comm, Nat.mul_comm cc (kh * kw), Nat.add_mul_mod_self_left,
        Nat.mod_eq_of_lt hlt]
    have e3 : (dy * kw + dx) / kw = dy := by
      rw [Nat.add_comm, Nat.mul_comm, Nat.add_mul_div_left _ _ hkw0, Nat.div_eq_of_lt hdx]
      omega
    have e4 : (dy * kw + dx) % kw = dx := by
      rw [Nat.add_comm, Nat.mul_comm, Nat.add_mul_mod_self_left, Nat.mod_eq_of_lt hdx]
    have hW0 : 0 < outW := by omega
    have e5 : (y * outW + x) / outW = y := by
      rw [Nat.add_comm, Nat.mul_comm, Nat.add_mul_div_left _ _ hW0, Nat.div_eq_of_lt hx]
      omega
    have e6 : (y * outW + x) % outW = x := by
      rw [Nat.add_comm, Nat.mul_comm, Nat.add_mul_mod_self_left, Nat.mod_eq_of_lt hx]
    show (reshapeKernel cg.m cin kh kw K4).entry o (cc * (kh * kw) + (dy * kw + dx))
        * (im2col cin kh kw outH outW input).entry (cc * (kh * kw) + (dy * kw + dx))
            (y * outW + x)
      = K4 o cc dy dx * input cc (y + dy) (x + dx)
    simp only [reshapeKernel, im2col]
    rw [e1, e2, e3, e4, e5, e6]

/-- C1 witness: the spec's hand-computed scenario — a (1,1,4,4) channel-first
input holding 1..16, a single 3x3 kernel with a 1 at its center, group 1,
stride 1, no padding — matches the naive reference on the whole (1,1,2,2)
output. -/
theorem C1_witness :
    okShape (c1_cg.conv_gemm (im2col 1 3 3 2 2 c1_input) (fun _ => 0))
        = [1, c1_cg.m, 2, 2]
    ∧ ∀ o < c1_cg.m, ∀ y < 2, ∀ x < 2,
        okAt (c1_cg.conv_gemm (im2col 1 3 3 2 2 c1_input) (fun _ => 0))
            (o * (2 * 2) + (y * 2 + x))
          = naiveConv 1 3 3 c1_K4 c1_input o y x
            + bias_value c1_cg (o * (2 * 2) + (y * 2 + x)) :=
  C1_matches_naive_conv c1_cg 1 3 3 2 2 c1_K4 c1_input (fun _ => 0)
    (by decide) (by decide) (by decide) (by decide) rfl (by decide) (by decide)
    (show BiasOk c1_cg from trivial)

end Claims

end TractConvGemm
